import Mathlib

/-!
Verification of the advanced-cache-manager orchestration core.

This file shallowly embeds the parts of the source relevant to the frozen
claims: the circuit breaker (src/stores/BaseStore.ts,
`executeWithCircuitBreaker`), the in-memory store (src/stores/MemoryStore.ts)
with its tag/dependency indexes and glob pattern matching, the layered
strategy (src/strategies/LayeredStrategy.ts), the cache-manager `exists`
loop (CacheManager in src/metrics/MetricsCollector.ts), and the dependency
invalidator with visited-set cycle detection
(src/invalidation/DependencyInvalidator.ts, post-fix revision).

JS numbers that hold timestamps and counters are modelled as `Nat`;
`Date.now()` is passed in as an explicit `now` parameter.  Fallible
operations return `Except`; a thrown-and-caught exception is an `Except.error`
consumed at the catch site.
-/

namespace CacheSpec

/-- Decidable equality for `Except`, used to evaluate concrete scenarios. -/
instance {ε α : Type} [DecidableEq ε] [DecidableEq α] :
    DecidableEq (Except ε α) := fun a b =>
  match a, b with
  | .ok x, .ok y => decidable_of_iff (x = y) (by simp)
  | .error x, .error y => decidable_of_iff (x = y) (by simp)
  | .ok _, .error _ => isFalse (by intro h; cases h)
  | .error _, .ok _ => isFalse (by intro h; cases h)

/-- JS values stored in the cache (`CacheValue` in src/types/index.ts),
restricted to the shapes the claims exercise: `undef` is the JS `undefined`
(rejected by `validateValue`), `prim` a primitive, and `obj deps` an object
whose optional `dependencies` field is read by
`DependencyInvalidator.findChildDependencies`. -/
inductive Val where
  | undef
  | prim (n : Nat)
  | obj (deps : Option (List String))
deriving DecidableEq, Repr

/-- The per-store circuit breaker configuration
(`circuitBreakerConfig` in src/stores/BaseStore.ts). `timeout` is in ms. -/
structure CBConfig where
  errorThreshold : Nat
  timeout : Nat
deriving DecidableEq, Repr

/-- `CircuitBreakerState` from src/types/index.ts. -/
structure CBState where
  isOpen : Bool
  failures : Nat
  lastFailTime : Option Nat
  nextAttemptTime : Option Nat
deriving DecidableEq, Repr

/-- The open-state check at the top of `BaseStore.executeWithCircuitBreaker`:
`none` means the call is rejected with `CircuitBreakerError`; `some cb'`
means the call may proceed with breaker state `cb'` (optimistically reset to
closed when the open-until timestamp has elapsed or is absent). -/
def cbGate (cb : CBState) (now : Nat) : Option CBState :=
  if cb.isOpen then
    match cb.nextAttemptTime with
    | some t =>
      if now < t then none
      else some { cb with isOpen := false, failures := 0 }
    | none => some { cb with isOpen := false, failures := 0 }
  else some cb

/-- Breaker bookkeeping after the wrapped operation ran
(the `try`/`catch` tail of `BaseStore.executeWithCircuitBreaker`). -/
def cbAfter (cfg : CBConfig) (cb : CBState) (now : Nat) (succeeded : Bool) : CBState :=
  if succeeded then { cb with failures := 0 }
  else
    let cb1 := { cb with failures := cb.failures + 1, lastFailTime := some now }
    if cb1.failures ≥ cfg.errorThreshold then
      { cb1 with isOpen := true, nextAttemptTime := some (now + cfg.timeout) }
    else cb1

/-- Outcome of a breaker-wrapped call: the operation's result, a rejection
with `CircuitBreakerError`, or the re-raised operation failure. -/
inductive CBResult (ε α : Type) where
  | ok (a : α)
  | circuitOpen
  | failed (e : ε)
deriving DecidableEq, Repr

/-- Result of `executeWithCircuitBreaker`: what the caller sees, the breaker
state afterwards, and whether the wrapped operation was actually invoked. -/
structure CBOutcome (ε α : Type) where
  result : CBResult ε α
  breaker : Option CBState
  invoked : Bool
deriving DecidableEq, Repr

/-- `BaseStore.executeWithCircuitBreaker`.  The wrapped operation is modelled
by its predetermined outcome `op`; `invoked` records whether control reached
`await operation()`.  When no breaker is configured (the constructor only
creates one when `config.circuitBreaker.enabled`), the operation runs
directly with no tracking. -/
def executeWithCircuitBreaker (cfg : Option CBConfig) (cb : Option CBState)
    (now : Nat) (op : Except ε α) : CBOutcome ε α :=
  match cfg, cb with
  | some cfg, some cb =>
    match cbGate cb now with
    | none => ⟨.circuitOpen, some cb, false⟩
    | some cb1 =>
      match op with
      | .ok a => ⟨.ok a, some (cbAfter cfg cb1 now true), true⟩
      | .error e => ⟨.failed e, some (cbAfter cfg cb1 now false), true⟩
  | _, _ =>
    match op with
    | .ok a => ⟨.ok a, cb, true⟩
    | .error e => ⟨.failed e, cb, true⟩

/-! ## Glob pattern matching

`MemoryStore.patternToRegex` escapes every regex metacharacter except `*`
and `?`, rewrites `*` to `.*` and `?` to `.`, and anchors the result with
`^`…`$`.  The compiled pattern is therefore a sequence of three kinds of
atoms; `patternToRegex` below produces that sequence, and `globMatch` is the
anchored matching semantics of such a regex (the regex engine itself is the
JS `RegExp` runtime, external to the repository). -/

/-- One atom of the compiled pattern: `.*`, `.`, or an (escaped) literal. -/
inductive GlobAtom where
  | star
  | anyChar
  | lit (c : Char)
deriving DecidableEq, Repr

/-- `MemoryStore.patternToRegex`: `*` becomes `.*`, `?` becomes `.`, every
other character is escaped and hence matches literally. -/
def patternToRegex (p : List Char) : List GlobAtom :=
  p.map fun c => if c = '*' then .star else if c = '?' then .anyChar else .lit c

/-- Matching a `.*` atom followed by the rest of the pattern: try every
split point of the remaining input. -/
def globStar (m : List Char → Bool) : List Char → Bool
  | [] => m []
  | c :: s => m (c :: s) || globStar m s

/-- Anchored matching of the compiled pattern against a whole key. -/
def globMatch : List GlobAtom → List Char → Bool
  | [] => List.isEmpty
  | .lit c :: ps => fun s =>
      match s with
      | [] => false
      | d :: s' => decide (c = d) && globMatch ps s'
  | .anyChar :: ps => fun s =>
      match s with
      | [] => false
      | _ :: s' => globMatch ps s'
  | .star :: ps => globStar (globMatch ps)

/-- The specification-level denotation of the compiled pattern: `*` matches
any (possibly empty) sequence, `?` exactly one character, literals match
themselves, and the whole key must be consumed (anchored both ends). -/
inductive GlobDenotes : List GlobAtom → List Char → Prop where
  | nil : GlobDenotes [] []
  | lit (c : Char) (ps : List GlobAtom) (s : List Char) :
      GlobDenotes ps s → GlobDenotes (.lit c :: ps) (c :: s)
  | anyChar (c : Char) (ps : List GlobAtom) (s : List Char) :
      GlobDenotes ps s → GlobDenotes (.anyChar :: ps) (c :: s)
  | star (pre suf : List Char) (ps : List GlobAtom) :
      GlobDenotes ps suf → GlobDenotes (.star :: ps) (pre ++ suf)

/-! ## MemoryStore

src/stores/MemoryStore.ts wraps an `lru-cache` instance configured with
`updateAgeOnGet: true`, `updateAgeOnHas: true`, a store-level default
`ttl` (ms) and a `dispose` hook that calls `cleanupIndexes`.  An entry
therefore carries, besides the fields of `CacheEntry` (src/types/index.ts),
the lru-cache bookkeeping: the age-start timestamp and the effective
lru-level TTL in ms (per-entry TTL if one was passed to `set`, otherwise
the constructor default).  lru-cache behaviour that the store relies on
(stale check on get/has, dispose on delete/replace/eviction, age refresh)
is modelled from that library's documented semantics, since the library is
external to the repository. -/

/-- `CacheEntry` plus the lru-cache per-item bookkeeping. -/
structure Entry where
  value : Val
  createdAt : Nat
  lastAccessed : Nat
  ttl : Option Nat
  tags : List String
  deps : List String
  lruStart : Nat
  lruTtl : Option Nat
deriving DecidableEq, Repr

/-- `CacheOptions` as used by `MemoryStore.set` (absent `tags` and
`dependencies` behave like empty lists: the source only iterates them). -/
structure SetOptions where
  ttl : Option Nat
  tags : List String
  dependencies : List String
deriving DecidableEq, Repr

/-- Errors a store operation can raise: `CircuitBreakerError`, or the
`StoreError`s thrown by `BaseStore.validateKey` / `validateValue`. -/
inductive Err where
  | circuitOpen
  | invalidKey
  | invalidValue
deriving DecidableEq, Repr

/-- The whole `MemoryStore` state: the lru-cache contents, the two index
maps, the constructor configuration and the breaker state. -/
structure MemStore where
  cache : List (String × Entry)
  tagIndex : List (String × List String)
  depIndex : List (String × List String)
  defaultTtl : Option Nat
  cbConfig : Option CBConfig
  cb : Option CBState
deriving DecidableEq, Repr

/-- Association-list update of the entry at an existing key. -/
def alUpdate (l : List (String × Entry)) (k : String) (e : Entry) :
    List (String × Entry) :=
  l.map fun kv => if kv.1 = k then (k, e) else kv

/-- Association-list removal (used for `cache.delete` and set-replace). -/
def alRemove (l : List (String × Entry)) (k : String) : List (String × Entry) :=
  l.filter fun kv => kv.1 ≠ k

/-- Look up an association list by key. -/
def alGet (l : List (String × Entry)) (k : String) : Option Entry :=
  (l.find? fun kv => kv.1 = k).map Prod.snd

/-- Look up an index map by tag / dependency identifier. -/
def idxGet (idx : List (String × List String)) (t : String) :
    Option (List String) :=
  (idx.find? fun b => b.1 = t).map Prod.snd

/-- `MemoryStore.updateIndexes`, one bucket: create the bucket on first use,
add the key to the (JS `Set`) bucket. -/
def idxAdd (idx : List (String × List String)) (t : String) (k : String) :
    List (String × List String) :=
  match idxGet idx t with
  | some b =>
      idx.map fun tb => if tb.1 = t then (t, if k ∈ b then b else b ++ [k]) else tb
  | none => idx ++ [(t, [k])]

/-- `MemoryStore.cleanupIndexes`, one bucket: drop the key from the bucket
and delete the bucket entirely once it is empty. -/
def idxRemoveKey (idx : List (String × List String)) (t : String) (k : String) :
    List (String × List String) :=
  match idxGet idx t with
  | some b =>
      let b' := b.filter fun x => x ≠ k
      if b' = [] then idx.filter fun tb => tb.1 ≠ t
      else idx.map fun tb => if tb.1 = t then (t, b') else tb
  | none => idx

/-- `MemoryStore.updateIndexes` over all tags and dependencies of an entry. -/
def updateIndexes (st : MemStore) (k : String) (e : Entry) : MemStore :=
  { st with
    tagIndex := e.tags.foldl (fun idx t => idxAdd idx t k) st.tagIndex,
    depIndex := e.deps.foldl (fun idx d => idxAdd idx d k) st.depIndex }

/-- `MemoryStore.cleanupIndexes` over all tags and dependencies of the
disposed entry. -/
def cleanupIndexes (st : MemStore) (k : String) (e : Entry) : MemStore :=
  { st with
    tagIndex := e.tags.foldl (fun idx t => idxRemoveKey idx t k) st.tagIndex,
    depIndex := e.deps.foldl (fun idx d => idxRemoveKey idx d k) st.depIndex }

/-- `cache.delete(key)`: removes the entry (if present) and fires the
`dispose` hook, which runs `cleanupIndexes`.  Returns whether a deletion
happened (the lru-cache `delete` return value). -/
def disposeDelete (st : MemStore) (k : String) : MemStore × Bool :=
  match alGet st.cache k with
  | none => (st, false)
  | some e => (cleanupIndexes { st with cache := alRemove st.cache k } k e, true)

/-- `BaseStore.isExpired`: a falsy `ttl` (absent or 0) never expires;
otherwise the entry is expired once `now - createdAt > ttl * 1000`. -/
def isExpired (createdAt : Nat) (ttl : Option Nat) (now : Nat) : Bool :=
  match ttl with
  | none => false
  | some t => if t = 0 then false else decide (now - createdAt > t * 1000)

/-- lru-cache staleness of an entry: the item's TTL has elapsed since its
age start (a 0 TTL means no TTL in lru-cache). -/
def lruStale (e : Entry) (now : Nat) : Bool :=
  match e.lruTtl with
  | none => false
  | some t => if t = 0 then false else decide (now - e.lruStart > t)

/-- `BaseStore.executeWithCircuitBreaker` threaded over the store state.
Store operations never touch the breaker fields, so the bookkeeping uses
the state produced by the gate.  With no configured breaker, the operation
runs directly. -/
def withCB (st : MemStore) (now : Nat)
    (op : MemStore → Except Err α × MemStore) : Except Err α × MemStore :=
  match st.cbConfig, st.cb with
  | some cfg, some cb =>
    match cbGate cb now with
    | none => (.error .circuitOpen, st)
    | some cb1 =>
      let p := op { st with cb := some cb1 }
      match p.1 with
      | .ok a => (.ok a, { p.2 with cb := some (cbAfter cfg cb1 now true) })
      | .error e => (.error e, { p.2 with cb := some (cbAfter cfg cb1 now false) })
  | _, _ => op st

/-- `BaseStore.validateKey`: the key must be a non-empty string (a
non-string key is unrepresentable here since keys are typed). -/
def validateKey (k : String) : Bool := k ≠ ""

/-- `MemoryStore.get`: validate, look up, honour lru staleness (the stale
entry is purged and the hook fires), refresh the lru age
(`updateAgeOnGet: true`), apply the lazy `isExpired` check (deleting on
expiry), else bump `lastAccessed` and return the value. -/
def memGetRaw (now : Nat) (k : String) (st : MemStore) :
    Except Err (Option Val) × MemStore :=
  if ¬ validateKey k then (.error .invalidKey, st)
  else
    match alGet st.cache k with
    | none => (.ok none, st)
    | some e =>
      if lruStale e now then (.ok none, (disposeDelete st k).1)
      else
        let e1 := { e with lruStart := now }
        let st1 := { st with cache := alUpdate st.cache k e1 }
        if isExpired e1.createdAt e1.ttl now then
          (.ok none, (disposeDelete st1 k).1)
        else
          let e2 := { e1 with lastAccessed := now }
          (.ok (some e2.value), { st1 with cache := alUpdate st1.cache k e2 })

/-- `MemoryStore.get` = the raw operation behind the breaker. -/
def memGet (st : MemStore) (now : Nat) (k : String) :
    Except Err (Option Val) × MemStore :=
  withCB st now (memGetRaw now k)

/-- `MemoryStore.set`: validate key and value, build the entry, store it
(replacing an existing entry fires the dispose hook on the old one first),
then `updateIndexes`.  The lru-level TTL is the per-call TTL in ms when one
was passed (0 is falsy and falls back), otherwise the constructor default. -/
def memSetRaw (now : Nat) (k : String) (v : Val) (opts : SetOptions)
    (st : MemStore) : Except Err Unit × MemStore :=
  if ¬ validateKey k then (.error .invalidKey, st)
  else if v = .undef then (.error .invalidValue, st)
  else
    let e : Entry :=
      { value := v, createdAt := now, lastAccessed := now,
        ttl := opts.ttl, tags := opts.tags, deps := opts.dependencies,
        lruStart := now,
        lruTtl :=
          match opts.ttl with
          | some t => if t = 0 then st.defaultTtl else some (t * 1000)
          | none => st.defaultTtl }
    let st1 :=
      match alGet st.cache k with
      | some old => cleanupIndexes { st with cache := alRemove st.cache k } k old
      | none => st
    let st2 := { st1 with cache := st1.cache ++ [(k, e)] }
    (.ok (), updateIndexes st2 k e)

/-- `MemoryStore.set` = the raw operation behind the breaker. -/
def memSet (st : MemStore) (now : Nat) (k : String) (v : Val)
    (opts : SetOptions) : Except Err Unit × MemStore :=
  withCB st now (memSetRaw now k v opts)

/-- `MemoryStore.del`. -/
def memDelRaw (k : String) (st : MemStore) : Except Err Bool × MemStore :=
  if ¬ validateKey k then (.error .invalidKey, st)
  else
    let p := disposeDelete st k
    (.ok p.2, p.1)

/-- `MemoryStore.del`. -/
def memDel (st : MemStore) (now : Nat) (k : String) :
    Except Err Bool × MemStore :=
  withCB st now (memDelRaw k)

/-- `MemoryStore.clear`: empties the cache and both indexes. -/
def memClearRaw (st : MemStore) : Except Err Unit × MemStore :=
  (.ok (), { st with cache := [], tagIndex := [], depIndex := [] })

/-- `MemoryStore.clear`. -/
def memClear (st : MemStore) (now : Nat) : Except Err Unit × MemStore :=
  withCB st now memClearRaw

/-- `MemoryStore.exists`: `cache.has` — false for lru-stale entries, and
`updateAgeOnHas: true` refreshes the age of live ones. -/
def memExistsRaw (now : Nat) (k : String) (st : MemStore) :
    Except Err Bool × MemStore :=
  if ¬ validateKey k then (.error .invalidKey, st)
  else
    match alGet st.cache k with
    | none => (.ok false, st)
    | some e =>
      if lruStale e now then (.ok false, st)
      else
        (.ok true, { st with cache := alUpdate st.cache k { e with lruStart := now } })

/-- `MemoryStore.exists`. -/
def memExistsOp (st : MemStore) (now : Nat) (k : String) :
    Except Err Bool × MemStore :=
  withCB st now (memExistsRaw now k)

/-- `MemoryStore.keys`: all (non-stale) cache keys, filtered through the
compiled glob when a pattern is given. -/
def memKeysRaw (now : Nat) (pat : Option String) (st : MemStore) :
    Except Err (List String) × MemStore :=
  let allKeys := (st.cache.filter fun kv => ¬ lruStale kv.2 now).map Prod.fst
  match pat with
  | none => (.ok allKeys, st)
  | some p =>
    (.ok (allKeys.filter fun k => globMatch (patternToRegex p.data) k.data), st)

/-- `MemoryStore.keys`. -/
def memKeys (st : MemStore) (now : Nat) (pat : Option String) :
    Except Err (List String) × MemStore :=
  withCB st now (memKeysRaw now pat)

/-- `MemoryStore.invalidateByTag`: delete every key in the tag's bucket
(each delete fires the dispose hook), then drop the bucket. -/
def memInvalidateByTagRaw (tag : String) (st : MemStore) :
    Except Err Nat × MemStore :=
  match idxGet st.tagIndex tag with
  | none => (.ok 0, st)
  | some bucket =>
    let p := bucket.foldl
      (fun (acc : MemStore × Nat) k =>
        let q := disposeDelete acc.1 k
        (q.1, acc.2 + if q.2 then 1 else 0))
      (st, 0)
    (.ok p.2, { p.1 with tagIndex := p.1.tagIndex.filter fun tb => tb.1 ≠ tag })

/-- `MemoryStore.invalidateByTag`. -/
def memInvalidateByTag (st : MemStore) (now : Nat) (tag : String) :
    Except Err Nat × MemStore :=
  withCB st now (memInvalidateByTagRaw tag)

/-- `MemoryStore.invalidateByDependency`: same shape over the dependency
index. -/
def memInvalidateByDependencyRaw (d : String) (st : MemStore) :
    Except Err Nat × MemStore :=
  match idxGet st.depIndex d with
  | none => (.ok 0, st)
  | some bucket =>
    let p := bucket.foldl
      (fun (acc : MemStore × Nat) k =>
        let q := disposeDelete acc.1 k
        (q.1, acc.2 + if q.2 then 1 else 0))
      (st, 0)
    (.ok p.2, { p.1 with depIndex := p.1.depIndex.filter fun tb => tb.1 ≠ d })

/-- `MemoryStore.invalidateByDependency`. -/
def memInvalidateByDependency (st : MemStore) (now : Nat) (d : String) :
    Except Err Nat × MemStore :=
  withCB st now (memInvalidateByDependencyRaw d)

/-- `MemoryStore.invalidateByPattern`: list the keys matching the glob via
the public `keys` (itself breaker-wrapped), then delete each match directly
on the cache, counting successful deletions. -/
def memInvalidateByPatternRaw (now : Nat) (p : String) (st : MemStore) :
    Except Err Nat × MemStore :=
  match memKeys st now (some p) with
  | (.error e, st') => (.error e, st')
  | (.ok ks, st') =>
    let q := ks.foldl
      (fun (acc : MemStore × Nat) k =>
        let r := disposeDelete acc.1 k
        (r.1, acc.2 + if r.2 then 1 else 0))
      (st', 0)
    (.ok q.2, q.1)

/-- `MemoryStore.invalidateByPattern`. -/
def memInvalidateByPattern (st : MemStore) (now : Nat) (p : String) :
    Except Err Nat × MemStore :=
  withCB st now (memInvalidateByPatternRaw now p)

/-- A fresh store as built by the constructors of `BaseStore` and
`MemoryStore` (the breaker starts closed with 0 failures when enabled). -/
def initStore (defaultTtl : Option Nat) (cbc : Option CBConfig) : MemStore :=
  { cache := [], tagIndex := [], depIndex := [],
    defaultTtl := defaultTtl, cbConfig := cbc,
    cb := cbc.map fun _ => ⟨false, 0, none, none⟩ }

/-! ## LayeredStrategy

src/strategies/LayeredStrategy.ts.  `get` walks the priority-ordered store
list, catches per-store errors (continuing to the next tier), and on the
first non-null hit promotes the value into every faster tier with
fire-and-forget `set(key, value)` writes whose failures are caught and only
logged.  `set`/`mset` fan out to every store, collect per-store errors, and
throw an aggregated error exactly when every store failed. -/

/-- `LayeredStrategy.promoteValue`: write the value into each store above
the hit (the accumulated prefix), catching per-store failures. -/
def promoteValue (pre : List MemStore) (now : Nat) (k : String) (v : Val) :
    List MemStore :=
  pre.map fun p => (memSet p now k v ⟨none, [], []⟩).2

/-- The loop of `LayeredStrategy.get` over `MemStore` tiers: `pre` is the
already-tried prefix (tiers above the current one). -/
def layeredGetGo (now : Nat) (k : String) :
    List MemStore → List MemStore → Option Val × List MemStore
  | pre, [] => (none, pre)
  | pre, st :: rest =>
    match memGet st now k with
    | (.error _, st') => layeredGetGo now k (pre ++ [st']) rest
    | (.ok none, st') => layeredGetGo now k (pre ++ [st']) rest
    | (.ok (some v), st') => (some v, promoteValue pre now k v ++ st' :: rest)

/-- `LayeredStrategy.get`. -/
def layeredGet (stores : List MemStore) (now : Nat) (k : String) :
    Option Val × List MemStore :=
  layeredGetGo now k [] stores

/-- Error raised by layered `set`/`mset` when every store failed: the
aggregated `Error` naming all per-store failures (their messages joined). -/
inductive LayeredErr where
  | allFailed (errors : List Err)
deriving DecidableEq, Repr

/-- `LayeredStrategy.set` over `MemStore` tiers: write to every store,
collecting (caught) per-store errors; throw the aggregate only when the
error count equals the store count. -/
def layeredSet (stores : List MemStore) (now : Nat) (k : String) (v : Val)
    (opts : SetOptions) : Except LayeredErr Unit × List MemStore :=
  let p := stores.foldl
    (fun (acc : List MemStore × List Err) st =>
      match memSet st now k v opts with
      | (.ok _, st') => (acc.1 ++ [st'], acc.2)
      | (.error e, st') => (acc.1 ++ [st'], acc.2 ++ [e]))
    ([], [])
  if p.2.length = stores.length then (.error (.allFailed p.2), p.1)
  else (.ok (), p.1)

/-- The error-collection skeleton shared by `LayeredStrategy.set` and
`LayeredStrategy.mset`, abstracted over the per-store write outcomes (the
stores behind the `IStore` interface need not be memory stores). -/
def layeredFanOut (results : List (Except String Unit)) :
    Except (List String) Unit :=
  let errs := results.foldl
    (fun acc r => match r with | .error e => acc ++ [e] | .ok _ => acc) []
  if errs.length = results.length then .error errs else .ok ()

/-- `LayeredStrategy.mset` has the same loop with `store.mset`; its
error-aggregation behaviour, abstracted over per-store outcomes. -/
def layeredMsetFanOut (results : List (Except String Unit)) :
    Except (List String) Unit :=
  let errs := results.foldl
    (fun acc r => match r with | .error e => acc ++ [e] | .ok _ => acc) []
  if errs.length = results.length then .error errs else .ok ()

/-- The loop body of `CacheManager.exists` (CacheManager in
src/metrics/MetricsCollector.ts): poll each store's `exists` in order,
short-circuit on the first `true`, treat a throwing store as `false`
(caught and logged), and fall through to `false`.  Each store is abstracted
by the outcome its `exists(key)` call would produce. -/
def cmExistsLoop : List (Except String Bool) → Bool
  | [] => false
  | .ok true :: _ => true
  | .ok false :: rest => cmExistsLoop rest
  | .error _ :: rest => cmExistsLoop rest

/-! ## DependencyInvalidator

src/invalidation/DependencyInvalidator.ts, the revision with visited-set
cycle detection (shipped in the repository and documented in its bug-fix
report; the pre-fix copy of the file has no `visited` set).
`invalidateByDependency` creates one `visited` set, then
`invalidateByDependencyInternal` skips already-visited dependencies
(returning 0 with a logged warning), invokes every store's native
dependency invalidation (errors caught as 0), and when `cascade` is set
recurses into the child dependencies discovered by scanning live entries.
The recursion is modelled with explicit fuel; termination is the content
of claim C1. -/

/-- The `dependencies` field `findChildDependencies` reads off a raw value. -/
def valDeps : Val → List String
  | .obj (some ds) => ds
  | _ => []

/-- `stores.map(store => store.invalidateByDependency(dependency))` with
per-store errors caught and counted as 0 (step 3 of the algorithm). -/
def invalidateAllStores (stores : List MemStore) (now : Nat) (d : String) :
    List MemStore × Nat :=
  stores.foldl
    (fun (acc : List MemStore × Nat) st =>
      match memInvalidateByDependency st now d with
      | (.ok n, st') => (acc.1 ++ [st'], acc.2 + n)
      | (.error _, st') => (acc.1 ++ [st'], acc.2))
    ([], 0)

/-- JS `Set.add`: insertion-ordered, duplicate-free accumulation. -/
def addUnique (acc : List String) (s : String) : List String :=
  if s ∈ acc then acc else acc ++ [s]

/-- Inner loop of `findChildDependencies` for one store: fetch each key,
and when the value is an object whose `dependencies` contain the parent,
add its other dependencies to the accumulator.  A thrown error aborts the
rest of this store's scan (the `try` wraps the whole loop) but keeps what
was accumulated so far. -/
def scanKeys (now : Nat) (d : String) :
    MemStore → List String → List String → MemStore × List String
  | st, [], acc => (st, acc)
  | st, k :: ks, acc =>
    match memGet st now k with
    | (.error _, st') => (st', acc)
    | (.ok v, st') =>
      let acc' :=
        match v with
        | some (.obj (some ds)) =>
          if d ∈ ds then (ds.filter fun x => x ≠ d).foldl addUnique acc
          else acc
        | _ => acc
      scanKeys now d st' ks acc'

/-- `DependencyInvalidator.findChildDependencies`: scan every store's keys
(`store.keys('*')`); per-store errors abort only that store's scan. -/
def findChildDeps (stores : List MemStore) (now : Nat) (d : String) :
    List MemStore × List String :=
  stores.foldl
    (fun (acc : List MemStore × List String) st =>
      match memKeys st now (some "*") with
      | (.error _, st') => (acc.1 ++ [st'], acc.2)
      | (.ok ks, st') =>
        let p := scanKeys now d st' ks acc.2
        (acc.1 ++ [p.1], p.2))
    ([], [])

/-- One `for` iteration chain of `cascadeInvalidation`: invoke `f` (the
internal invalidation at the next fuel level) on each child in order,
threading stores and the shared visited set and summing the counts. -/
def cascadeList
    (f : List MemStore → List String → String →
      Option (List MemStore × List String × Nat)) :
    List MemStore → List String → List String →
      Option (List MemStore × List String × Nat)
  | sts, vis, [] => some (sts, vis, 0)
  | sts, vis, c :: cs =>
    match f sts vis c with
    | none => none
    | some (sts', vis', n) =>
      match cascadeList f sts' vis' cs with
      | none => none
      | some (sts'', vis'', m) => some (sts'', vis'', n + m)

/-- `DependencyInvalidator.invalidateByDependencyInternal` (with
`cascadeInvalidation` inlined as the `cascadeList` call), under explicit
fuel: an already-visited dependency is skipped with a logged warning and a
0 contribution; otherwise it is added to `visited`, every store's native
invalidation runs, and with `cascade` set the discovered children are
recursed into with `cascade: true` and the same visited set. -/
def invalInternal (now : Nat) (cascade : Bool) :
    Nat → List MemStore → List String → String →
      Option (List MemStore × List String × Nat)
  | 0, _, _, _ => none
  | fuel + 1, sts, vis, d =>
    if d ∈ vis then some (sts, vis, 0)
    else
      let vis' := vis ++ [d]
      let p := invalidateAllStores sts now d
      if cascade then
        let q := findChildDeps p.1 now d
        if q.2 = [] then some (q.1, vis', p.2)
        else
          match cascadeList (invalInternal now true fuel) q.1 vis' q.2 with
          | none => none
          | some (sts3, vis3, m) => some (sts3, vis3, p.2 + m)
      else some (p.1, vis', p.2)

/-- `DependencyInvalidator.invalidateByDependency`: fresh visited set. -/
def invalidateByDependency (now : Nat) (stores : List MemStore) (d : String)
    (cascade : Bool) (fuel : Nat) :
    Option (List MemStore × List String × Nat) :=
  invalInternal now cascade fuel stores [] d

/-! ## Reachable store states and the index invariant (claim C8) -/

/-- One public `MemoryStore` operation (plus backend-native eviction, which
fires the same dispose hook lru-cache uses for capacity eviction). -/
inductive MemOp where
  | opGet (now : Nat) (k : String)
  | opSet (now : Nat) (k : String) (v : Val) (o : SetOptions)
  | opDel (now : Nat) (k : String)
  | opClear (now : Nat)
  | opHas (now : Nat) (k : String)
  | opKeys (now : Nat) (p : Option String)
  | opInvTag (now : Nat) (t : String)
  | opInvPattern (now : Nat) (p : String)
  | opInvDep (now : Nat) (d : String)
  | opEvict (k : String)

/-- State effect of one operation (results discarded). -/
def applyOp (st : MemStore) : MemOp → MemStore
  | .opGet now k => (memGet st now k).2
  | .opSet now k v o => (memSet st now k v o).2
  | .opDel now k => (memDel st now k).2
  | .opClear now => (memClear st now).2
  | .opHas now k => (memExistsOp st now k).2
  | .opKeys now p => (memKeys st now p).2
  | .opInvTag now t => (memInvalidateByTag st now t).2
  | .opInvPattern now p => (memInvalidateByPattern st now p).2
  | .opInvDep now d => (memInvalidateByDependency st now d).2
  | .opEvict k => (disposeDelete st k).1

/-- The store state after an arbitrary operation history. -/
def runOps (dt : Option Nat) (cbc : Option CBConfig) (ops : List MemOp) :
    MemStore :=
  ops.foldl applyOp (initStore dt cbc)

/-- One index map is well-formed w.r.t. a cache, for the projection `f`
(tags or dependencies): buckets are non-empty and every key they hold
currently exists in the cache with the bucket's identifier among its
`f`-labels. -/
def bucketsOk (f : Entry → List String) (cache : List (String × Entry))
    (idx : List (String × List String)) : Prop :=
  ∀ p ∈ idx, p.2 ≠ [] ∧ ∀ k ∈ p.2, ∃ e, alGet cache k = some e ∧ p.1 ∈ f e

/-- The MemoryStore index invariant (strengthened form used for the
induction: bucket membership is witnessed by the key's current entry). -/
def IndexInv (st : MemStore) : Prop :=
  bucketsOk (fun e => e.tags) st.cache st.tagIndex
  ∧ bucketsOk (fun e => e.deps) st.cache st.depIndex

/-! ## Dependency universe (for the C1 termination bound) -/

/-- All dependency identifiers readable off one store's live values. -/
def storeDeps (st : MemStore) : List String :=
  st.cache.flatMap fun kv => valDeps kv.2.value

/-- All dependency identifiers readable across a store list. -/
def univDeps (stores : List MemStore) : List String :=
  stores.flatMap storeDeps

/-! ## Concrete scenario states used by witnesses and counterexamples -/

/-- Fresh breaker-less store. -/
def emptyStore : MemStore := initStore none none

/-- The pattern-invalidation scenario of claim C6: keys `user:1`, `user:2`,
`post:1`. -/
def c6Store : MemStore :=
  (memSet ((memSet ((memSet emptyStore 0 "user:1" (.prim 1) ⟨none, [], []⟩).2)
    0 "user:2" (.prim 2) ⟨none, [], []⟩).2) 0 "post:1" (.prim 3) ⟨none, [], []⟩).2

/-- Claim C7 scenario: store-level default TTL of 1s (1000 ms), entry set
at t=0 with no per-call TTL. -/
def c7AfterSet : MemStore :=
  (memSet (initStore (some 1000) none) 0 "k" (.prim 7) ⟨none, [], []⟩).2

/-- The same store after a read at t=900 (the read refreshes the lru age). -/
def c7AfterRead : MemStore := (memGet c7AfterSet 900 "k").2

/-- Claim C1 witness state: one entry whose value carries the cyclic
dependency list `A`, `B` (each a child of the other during cascade). -/
def c1CycleStore : MemStore :=
  (memSet emptyStore 0 "X" (.obj (some ["A", "B"])) ⟨none, [], []⟩).2

/-- Claim C5 witness stores: tier A empty, tier B holding the key. -/
def c5StoreB : MemStore :=
  (memSet emptyStore 0 "k" (.prim 5) ⟨none, [], []⟩).2

/-- The error (message) carried by a failed per-store write, if any. -/
def errOf : Except String Unit → Option String
  | .error e => some e
  | .ok _ => none

/-- The non-breaker part of a store state (everything the cache and index
invariants talk about; `withCB` only ever touches the `cb` field). -/
def sameCore (a b : MemStore) : Prop :=
  a.cache = b.cache ∧ a.tagIndex = b.tagIndex ∧ a.depIndex = b.depIndex
  ∧ a.defaultTtl = b.defaultTtl ∧ a.cbConfig = b.cbConfig

/-- A store whose breaker (if any) is closed: its gate always passes. -/
def cbReady (st : MemStore) : Prop :=
  ∀ cfg cb, st.cbConfig = some cfg → st.cb = some cb → cb.isOpen = false

/-! # Theorems -/

/-- The `.*` step of the matcher succeeds exactly when some split of the
input lets the rest of the pattern match the suffix. -/
theorem globStar_true_iff (m : List Char → Bool) :
    ∀ s, globStar m s = true ↔ ∃ pre suf, s = pre ++ suf ∧ m suf = true := by
  intro s
  induction s with
  | nil =>
    constructor
    · intro h; exact ⟨[], [], rfl, h⟩
    · rintro ⟨pre, suf, hs, hm⟩
      rcases List.append_eq_nil.mp hs.symm with ⟨rfl, rfl⟩
      exact hm
  | cons c s ih =>
    constructor
    · intro h
      rcases Bool.or_eq_true_iff.mp h with h | h
      · exact ⟨[], c :: s, rfl, h⟩
      · rcases ih.mp h with ⟨pre, suf, hs, hm⟩
        exact ⟨c :: pre, suf, by simp [hs], hm⟩
    · rintro ⟨pre, suf, hs, hm⟩
      cases pre with
      | nil =>
        simp only [List.nil_append] at hs
        subst hs
        exact Bool.or_eq_true_iff.mpr (Or.inl hm)
      | cons p pre =>
        rw [List.cons_append] at hs
        injection hs with h1 h2
        subst h1
        exact Bool.or_eq_true_iff.mpr (Or.inr (ih.mpr ⟨pre, suf, h2, hm⟩))

/-- The executable matcher agrees with the denotational glob semantics. -/
theorem globMatch_true_iff (ps : List GlobAtom) :
    ∀ s, globMatch ps s = true ↔ GlobDenotes ps s := by
  induction ps with
  | nil =>
    intro s
    constructor
    · intro h
      have : s = [] := by
        cases s with
        | nil => rfl
        | cons c s => simp [globMatch] at h
      subst this
      exact .nil
    · intro h
      cases h
      rfl
  | cons a ps ih =>
    cases a with
    | star =>
      intro s
      rw [show globMatch (.star :: ps) s = globStar (globMatch ps) s from rfl,
        globStar_true_iff]
      constructor
      · rintro ⟨pre, suf, rfl, hm⟩
        exact .star pre suf ps ((ih suf).mp hm)
      · intro h
        cases h with
        | star pre suf _ hd => exact ⟨pre, suf, rfl, (ih suf).mpr hd⟩
    | anyChar =>
      intro s
      cases s with
      | nil =>
        constructor
        · intro h; simp [globMatch] at h
        · intro h; cases h
      | cons c s =>
        constructor
        · intro h
          exact .anyChar c ps s ((ih s).mp h)
        · intro h
          cases h with
          | anyChar _ _ _ hd => exact (ih s).mpr hd
    | lit c =>
      intro s
      cases s with
      | nil =>
        constructor
        · intro h; simp [globMatch] at h
        · intro h; cases h
      | cons d s =>
        constructor
        · intro h
          have h' := h
          simp only [globMatch, Bool.and_eq_true, decide_eq_true_eq] at h'
          rcases h' with ⟨rfl, hm⟩
          exact .lit c ps s ((ih s).mp hm)
        · intro h
          cases h with
          | lit _ _ _ hd =>
            have hm := (ih s).mpr hd
            simp [globMatch, hm]

/-- C6: the glob matching used for key listing and pattern invalidation is
exactly the specified one — `*` matches any (possibly empty) sequence, `?`
exactly one character, all other characters literally, anchored at both
ends (the `GlobDenotes` denotation); `a?c` matches `abc` but not `ac` or
`abbc`; and on keys `user:1`, `user:2`, `post:1`,
`invalidateByPattern("user:*")` returns 2 and removes exactly the two
`user:` keys. -/
theorem globSemantics_exact :
    (∀ ps s, globMatch ps s = true ↔ GlobDenotes ps s)
    ∧ globMatch (patternToRegex "a?c".data) "abc".data = true
    ∧ globMatch (patternToRegex "a?c".data) "ac".data = false
    ∧ globMatch (patternToRegex "a?c".data) "abbc".data = false
    ∧ (memInvalidateByPattern c6Store 0 "user:*").1 = .ok 2
    ∧ alGet (memInvalidateByPattern c6Store 0 "user:*").2.cache "user:1" = none
    ∧ alGet (memInvalidateByPattern c6Store 0 "user:*").2.cache "user:2" = none
    ∧ (alGet (memInvalidateByPattern c6Store 0 "user:*").2.cache "post:1").isSome
        = true :=
  ⟨fun ps s => globMatch_true_iff ps s, by decide, by decide, by decide,
    by decide, by decide, by decide, by decide⟩

/-- C2: the per-store circuit breaker follows the specified state machine —
open and not elapsed: immediate `CircuitBreakerError` without invoking the
operation; open and elapsed: behaves as a half-open probe on the
closed/zeroed state; success resets the failure counter; failure increments
it, opening the breaker with open-until = now + timeout once the threshold
is reached, re-raising the failure; with no breaker the operation runs
directly with no tracking. -/
theorem circuitBreaker_stateMachine {ε α : Type} (cfg : CBConfig) (cb : CBState)
    (now : Nat) (op : Except ε α) :
    (∀ t, cb.isOpen = true → cb.nextAttemptTime = some t → now < t →
      executeWithCircuitBreaker (some cfg) (some cb) now op =
        ⟨.circuitOpen, some cb, false⟩)
    ∧ (∀ t, cb.isOpen = true → cb.nextAttemptTime = some t → t ≤ now →
      executeWithCircuitBreaker (some cfg) (some cb) now op =
        executeWithCircuitBreaker (some cfg)
          (some { cb with isOpen := false, failures := 0 }) now op)
    ∧ (∀ a, cb.isOpen = false → op = .ok a →
      executeWithCircuitBreaker (some cfg) (some cb) now op =
        ⟨.ok a, some { cb with failures := 0 }, true⟩)
    ∧ (∀ e, cb.isOpen = false → op = .error e →
        cb.failures + 1 < cfg.errorThreshold →
      executeWithCircuitBreaker (some cfg) (some cb) now op =
        ⟨.failed e,
          some { cb with failures := cb.failures + 1, lastFailTime := some now },
          true⟩)
    ∧ (∀ e, cb.isOpen = false → op = .error e →
        cfg.errorThreshold ≤ cb.failures + 1 →
      executeWithCircuitBreaker (some cfg) (some cb) now op =
        ⟨.failed e,
          some { cb with
            failures := cb.failures + 1
            lastFailTime := some now
            isOpen := true
            nextAttemptTime := some (now + cfg.timeout) },
          true⟩)
    ∧ (executeWithCircuitBreaker (none : Option CBConfig) (none : Option CBState)
        now op =
        ⟨match op with | .ok a => .ok a | .error e => .failed e, none, true⟩) := by
  refine ⟨?_, ?_, ?_, ?_, ?_, ?_⟩
  · intro t ho hn hlt
    simp [executeWithCircuitBreaker, cbGate, ho, hn, hlt]
  · intro t ho hn hle
    simp [executeWithCircuitBreaker, cbGate, ho, hn, Nat.not_lt.mpr hle]
  · intro a ho hop
    subst hop
    simp [executeWithCircuitBreaker, cbGate, ho, cbAfter]
  · intro e ho hop hlt
    subst hop
    simp [executeWithCircuitBreaker, cbGate, ho, cbAfter, Nat.not_le.mpr hlt]
  · intro e ho hop hle
    subst hop
    simp [executeWithCircuitBreaker, cbGate, ho, cbAfter, hle]
  · cases op <;> rfl

/-- Witness for `circuitBreaker_stateMachine` at concrete breaker states. -/
theorem circuitBreaker_stateMachine_witness :
    executeWithCircuitBreaker (some ⟨2, 100⟩) (some ⟨true, 2, none, some 50⟩) 10
        (Except.error "boom" : Except String Nat) =
      ⟨.circuitOpen, some ⟨true, 2, none, some 50⟩, false⟩
    ∧ executeWithCircuitBreaker (some ⟨2, 100⟩) (some ⟨false, 0, none, none⟩) 7
        (Except.ok 5 : Except String Nat) =
      ⟨.ok 5, some ⟨false, 0, none, none⟩, true⟩
    ∧ executeWithCircuitBreaker (some ⟨2, 100⟩) (some ⟨false, 1, none, none⟩) 7
        (Except.error "boom" : Except String Nat) =
      ⟨.failed "boom", some ⟨true, 2, some 7, some 107⟩, true⟩ := by
  refine ⟨?_, ?_, ?_⟩
  · exact (circuitBreaker_stateMachine ⟨2, 100⟩ ⟨true, 2, none, some 50⟩ 10 _).1
      50 rfl rfl (by decide)
  · exact (circuitBreaker_stateMachine ⟨2, 100⟩ ⟨false, 0, none, none⟩ 7
      (Except.ok 5 : Except String Nat)).2.2.1 5 rfl rfl
  · exact (circuitBreaker_stateMachine ⟨2, 100⟩ ⟨false, 1, none, none⟩ 7
      (Except.error "boom" : Except String Nat)).2.2.2.2.1 "boom" rfl rfl
      (by decide)

/-- C9: after an elapsed open period, a failing half-open probe leaves the
breaker closed with failure counter 1 (reset happened before the probe), so
with a threshold above 1 the next call still invokes the backend. -/
theorem halfOpenProbe_failure_staysClosed {ε α : Type} (cfg : CBConfig)
    (cb : CBState) (now t : Nat) (e : ε)
    (h1 : cb.isOpen = true) (h2 : cb.nextAttemptTime = some t) (h3 : t ≤ now)
    (h4 : 1 < cfg.errorThreshold) :
    executeWithCircuitBreaker (some cfg) (some cb) now (.error e : Except ε α) =
      ⟨.failed e,
        some { cb with isOpen := false, failures := 1, lastFailTime := some now },
        true⟩
    ∧ ∀ (now' : Nat) (op : Except ε α),
        (executeWithCircuitBreaker (some cfg)
          (some { cb with
            isOpen := false
            failures := 1
            lastFailTime := some now }) now' op).invoked = true := by
  constructor
  · simp [executeWithCircuitBreaker, cbGate, h1, h2, Nat.not_lt.mpr h3, cbAfter,
      Nat.not_le.mpr h4]
  · intro now' op
    cases op <;> simp [executeWithCircuitBreaker, cbGate]

/-- Witness for `halfOpenProbe_failure_staysClosed`. -/
theorem halfOpenProbe_failure_staysClosed_witness :
    executeWithCircuitBreaker (some ⟨2, 100⟩) (some ⟨true, 2, some 1, some 50⟩) 60
        (Except.error "boom" : Except String Nat) =
      ⟨.failed "boom", some ⟨false, 1, some 60, some 50⟩, true⟩
    ∧ (executeWithCircuitBreaker (some ⟨2, 100⟩) (some ⟨false, 1, some 60, some 50⟩)
        61 (Except.ok 3 : Except String Nat)).invoked = true := by
  have h := halfOpenProbe_failure_staysClosed (⟨2, 100⟩ : CBConfig)
    (⟨true, 2, some 1, some 50⟩ : CBState) 60 50 "boom" rfl rfl (by decide)
    (by decide) (α := Nat)
  exact ⟨h.1, h.2 61 (Except.ok 3)⟩

/-- C10: the `CacheManager.exists` loop returns true exactly when some
store reports the key (a throwing store is treated as not holding it and
the error is never re-raised), short-circuiting at the first success. -/
theorem cmExists_anyStore (rs : List (Except String Bool)) :
    (cmExistsLoop rs = true ↔ Except.ok true ∈ rs)
    ∧ (∀ rest, cmExistsLoop (Except.ok true :: rest) = true)
    ∧ (∀ e rest, cmExistsLoop (Except.error e :: rest) = cmExistsLoop rest)
    ∧ (∀ rest, cmExistsLoop (Except.ok false :: rest) = cmExistsLoop rest) := by
  refine ⟨?_, fun rest => rfl, fun e rest => rfl, fun rest => rfl⟩
  induction rs with
  | nil => simp [cmExistsLoop]
  | cons r rest ih =>
    cases r with
    | error e => simp [cmExistsLoop, ih]
    | ok b => cases b <;> simp [cmExistsLoop, ih]

/-- Witness for `cmExists_anyStore`. -/
theorem cmExists_anyStore_witness :
    cmExistsLoop [Except.error "down", Except.ok true] = true :=
  (cmExists_anyStore [Except.error "down", Except.ok true]).1.mpr (by decide)

/-- The error-collecting fold of layered `set`/`mset` gathers exactly the
per-store errors, in order. -/
theorem fanOut_errs_eq (rs : List (Except String Unit)) :
    ∀ acc, rs.foldl
      (fun acc r => match r with | .error e => acc ++ [e] | .ok _ => acc) acc
      = acc ++ rs.filterMap errOf := by
  induction rs with
  | nil => intro acc; simp
  | cons r rs ih =>
    intro acc
    cases r with
    | error e => simp [List.filterMap_cons, errOf, ih]
    | ok u => simp [List.filterMap_cons, errOf, ih]

/-- All per-store writes failed exactly when the collected error list is as
long as the result list. -/
theorem filterMap_errOf_length_eq (rs : List (Except String Unit)) :
    (rs.filterMap errOf).length = rs.length ↔ ∀ r ∈ rs, ∃ e, r = .error e := by
  induction rs with
  | nil => simp
  | cons r rs ih =>
    cases r with
    | error e =>
      simp only [List.filterMap_cons, errOf, List.length_cons, Nat.succ.injEq]
      constructor
      · intro h r hr
        rcases List.mem_cons.mp hr with rfl | hr
        · exact ⟨e, rfl⟩
        · exact (ih.mp h) r hr
      · intro h
        exact ih.mpr fun r hr => h r (List.mem_cons_of_mem _ hr)
    | ok u =>
      simp only [List.filterMap_cons, errOf, List.length_cons]
      constructor
      · intro h
        exact absurd h (Nat.ne_of_lt (Nat.lt_succ_of_le
          (List.length_filterMap_le errOf rs)))
      · intro h
        exact absurd (h (.ok u) (List.mem_cons_self _ _)) (by simp)

/-- C4: layered `set` (and `mset`) raise exactly when every configured store
failed the write, and the raised aggregate carries all per-store failures;
any single success makes the call succeed. -/
theorem layeredWrite_allFailPolicy (rs : List (Except String Unit)) :
    ((∃ es, layeredFanOut rs = .error es) ↔ ∀ r ∈ rs, ∃ e, r = .error e)
    ∧ (∀ es, layeredFanOut rs = .error es → es = rs.filterMap errOf)
    ∧ ((∃ r ∈ rs, r = .ok ()) → layeredFanOut rs = .ok ())
    ∧ ((∃ es, layeredMsetFanOut rs = .error es) ↔ ∀ r ∈ rs, ∃ e, r = .error e)
    ∧ (∀ es, layeredMsetFanOut rs = .error es → es = rs.filterMap errOf) := by
  have hunf : ∀ g : List (Except String Unit) → Except (List String) Unit,
      (g = layeredFanOut ∨ g = layeredMsetFanOut) →
      g rs = if (rs.filterMap errOf).length = rs.length
        then .error (rs.filterMap errOf) else .ok () := by
    rintro g (rfl | rfl) <;>
      simp only [layeredFanOut, layeredMsetFanOut, fanOut_errs_eq rs [],
        List.nil_append]
  have hF := hunf layeredFanOut (Or.inl rfl)
  have hM := hunf layeredMsetFanOut (Or.inr rfl)
  refine ⟨?_, ?_, ?_, ?_, ?_⟩
  · rw [hF]
    by_cases h : (rs.filterMap errOf).length = rs.length
    · rw [if_pos h]
      exact ⟨fun _ => (filterMap_errOf_length_eq rs).mp h, fun _ => ⟨_, rfl⟩⟩
    · rw [if_neg h]
      constructor
      · rintro ⟨es, hes⟩; cases hes
      · intro hall; exact absurd ((filterMap_errOf_length_eq rs).mpr hall) h
  · intro es
    rw [hF]
    by_cases h : (rs.filterMap errOf).length = rs.length
    · rw [if_pos h]
      intro he
      injection he with h2
      exact h2.symm
    · rw [if_neg h]
      intro he
      cases he
  · rintro ⟨r, hr, rfl⟩
    rw [hF]
    have hne : ¬ (rs.filterMap errOf).length = rs.length := by
      intro h
      rcases ((filterMap_errOf_length_eq rs).mp h) _ hr with ⟨e, he⟩
      cases he
    rw [if_neg hne]
  · rw [hM]
    by_cases h : (rs.filterMap errOf).length = rs.length
    · rw [if_pos h]
      exact ⟨fun _ => (filterMap_errOf_length_eq rs).mp h, fun _ => ⟨_, rfl⟩⟩
    · rw [if_neg h]
      constructor
      · rintro ⟨es, hes⟩; cases hes
      · intro hall; exact absurd ((filterMap_errOf_length_eq rs).mpr hall) h
  · intro es
    rw [hM]
    by_cases h : (rs.filterMap errOf).length = rs.length
    · rw [if_pos h]
      intro he
      injection he with h2
      exact h2.symm
    · rw [if_neg h]
      intro he
      cases he

/-- Witness for `layeredWrite_allFailPolicy`. -/
theorem layeredWrite_allFailPolicy_witness :
    layeredFanOut [Except.error "a", Except.error "b"] = .error ["a", "b"]
    ∧ layeredFanOut [Except.error "a", Except.ok ()] = .ok () := by
  constructor
  · have h := (layeredWrite_allFailPolicy
      [Except.error "a", Except.error "b"]).1.mpr (by
        intro r hr
        rcases List.mem_cons.mp hr with rfl | hr
        · exact ⟨"a", rfl⟩
        · rcases List.mem_cons.mp hr with rfl | hr
          · exact ⟨"b", rfl⟩
          · cases hr)
    rcases h with ⟨es, hes⟩
    have := (layeredWrite_allFailPolicy
      [Except.error "a", Except.error "b"]).2.1 es hes
    rw [hes, this]
    rfl
  · exact (layeredWrite_allFailPolicy [Except.error "a", Except.ok ()]).2.2.1
      ⟨Except.ok (), by simp, rfl⟩

/-- C7 (code bug): with a store-level default TTL of 1000 ms and an entry
created at t=0, a get at t=1800 misses (the entry is stale) — unless a read
happened at t=900, after which the get at t=1800 still returns the value:
`updateAgeOnGet: true` makes reads push the expiry out, so the entry does
not expire relative to its creation time. -/
theorem memGet_mutates_lruExpiry :
    (memGet c7AfterSet 900 "k").1 = .ok (some (.prim 7))
    ∧ (memGet c7AfterSet 1800 "k").1 = .ok none
    ∧ (memGet c7AfterRead 1800 "k").1 = .ok (some (.prim 7)) :=
  ⟨by decide, by decide, by decide⟩

/-! ## Breaker-threading helper lemmas -/

/-- A passing gate always hands back a closed breaker. -/
theorem cbGate_isOpen_false {cb cb1 : CBState} {now : Nat}
    (h : cbGate cb now = some cb1) : cb1.isOpen = false := by
  unfold cbGate at h
  cases ho : cb.isOpen with
  | false =>
    simp only [ho, Bool.false_eq_true, if_false, Option.some.injEq] at h
    rw [← h]
    exact ho
  | true =>
    simp only [ho, if_true] at h
    cases hn : cb.nextAttemptTime with
    | none =>
      simp only [hn, Option.some.injEq] at h
      rw [← h]
    | some t =>
      simp only [hn] at h
      by_cases hlt : now < t
      · simp only [if_pos hlt] at h
        cases h
      · simp only [if_neg hlt, Option.some.injEq] at h
        rw [← h]

/-- A closed breaker passes the gate unchanged. -/
theorem cbGate_of_closed {cb : CBState} (now : Nat) (h : cb.isOpen = false) :
    cbGate cb now = some cb := by
  unfold cbGate
  rw [h]
  rfl

/-- A breaker-wrapped call that returned `ok` ran the underlying operation
on the store (with some breaker field), produced its result, and kept its
non-breaker state. -/
theorem withCB_ok {α : Type} {st : MemStore} {now : Nat}
    {op : MemStore → Except Err α × MemStore} {a : α}
    (h : (withCB st now op).1 = .ok a) :
    ∃ x, (op { st with cb := x }).1 = .ok a ∧
      sameCore (withCB st now op).2 (op { st with cb := x }).2 := by
  obtain ⟨ca, ti, di, dt, cbc, cbv⟩ := st
  cases cbc with
  | none => exact ⟨cbv, h, rfl, rfl, rfl, rfl, rfl⟩
  | some cfg =>
    cases cbv with
    | none => exact ⟨none, h, rfl, rfl, rfl, rfl, rfl⟩
    | some cb =>
      unfold withCB at h ⊢
      cases hg : cbGate cb now with
      | none => simp only [hg] at h; cases h
      | some cb1 =>
        simp only [hg] at h ⊢
        refine ⟨some cb1, ?_⟩
        cases hp : (op ⟨ca, ti, di, dt, some cfg, some cb1⟩).1 with
        | ok b =>
          simp only [hp] at h ⊢
          cases h
          exact ⟨rfl, rfl, rfl, rfl, rfl, rfl⟩
        | error e => simp only [hp] at h; cases h

/-- On a ready (closed-breaker or breaker-less) store, the wrapped call
produces the raw operation's result and keeps its non-breaker state. -/
theorem withCB_ready {α : Type} {st : MemStore} (now : Nat)
    {op : MemStore → Except Err α × MemStore} (h : cbReady st) :
    ∃ x, (withCB st now op).1 = (op { st with cb := x }).1 ∧
      sameCore (withCB st now op).2 (op { st with cb := x }).2 := by
  obtain ⟨ca, ti, di, dt, cbc, cbv⟩ := st
  cases cbc with
  | none => exact ⟨cbv, rfl, rfl, rfl, rfl, rfl, rfl⟩
  | some cfg =>
    cases cbv with
    | none => exact ⟨none, rfl, rfl, rfl, rfl, rfl, rfl⟩
    | some cb =>
      unfold withCB
      simp only [cbGate_of_closed now (h cfg cb rfl rfl)]
      refine ⟨some cb, ?_⟩
      cases hp : (op ⟨ca, ti, di, dt, some cfg, some cb⟩).1 with
      | ok b =>
        simp only [hp]
        exact ⟨trivial, rfl, rfl, rfl, rfl, rfl⟩
      | error e =>
        simp only [hp]
        exact ⟨trivial, rfl, rfl, rfl, rfl, rfl⟩

/-- A breaker-wrapped call with no configured breaker is the raw call. -/
theorem withCB_noBreaker {α : Type} {st : MemStore} (now : Nat)
    {op : MemStore → Except Err α × MemStore} (h : st.cbConfig = none) :
    withCB st now op = op st := by
  unfold withCB
  simp only [h]

/-! ## Association-list and entry lemmas -/

/-- `cache.delete` removes the key from the association list. -/
theorem alGet_alRemove_self (l : List (String × Entry)) (k : String) :
    alGet (alRemove l k) k = none := by
  unfold alGet alRemove
  have : (l.filter fun kv => kv.1 ≠ k).find? (fun kv => kv.1 = k) = none := by
    rw [List.find?_eq_none]
    intro x hx
    have := (List.mem_filter.mp hx).2
    simpa using this
  rw [this]
  rfl

/-- Appending a fresh binding makes it the one found. -/
theorem alGet_append_right (l : List (String × Entry)) (k : String) (e : Entry)
    (h : alGet l k = none) : alGet (l ++ [(k, e)]) k = some e := by
  induction l with
  | nil => simp [alGet, List.find?]
  | cons x l ih =>
    unfold alGet at h ⊢
    cases hx : (decide (x.1 = k)) with
    | true =>
      simp only [List.find?_cons, hx] at h
      simp at h
    | false =>
      simp only [List.cons_append, List.find?_cons, hx] at h ⊢
      exact ih h

/-- A just-written entry is not lru-stale at its own write time. -/
theorem lruStale_fresh (e : Entry) (now : Nat) (h : e.lruStart = now) :
    lruStale e now = false := by
  unfold lruStale
  cases e.lruTtl with
  | none => rfl
  | some t =>
    by_cases ht : t = 0
    · simp [ht]
    · simp [ht, h, Nat.sub_self]

/-- A just-written entry is not lazily expired at its own write time. -/
theorem isExpired_now (ttl : Option Nat) (now : Nat) :
    isExpired now ttl now = false := by
  unfold isExpired
  cases ttl with
  | none => rfl
  | some t =>
    by_cases ht : t = 0
    · simp [ht]
    · simp [ht, Nat.sub_self]

/-! ## Raw-operation analysis lemmas -/

/-- A successful raw `set` appended the new entry behind a `k`-free prefix,
and the entry carries the written value with fresh timestamps. -/
theorem memSetRaw_ok_shape {now : Nat} {k : String} {v : Val}
    {opts : SetOptions} {st : MemStore} {u : Unit}
    (h : (memSetRaw now k v opts st).1 = .ok u) :
    k ≠ "" ∧ ∃ e rest, (memSetRaw now k v opts st).2.cache = rest ++ [(k, e)]
      ∧ alGet rest k = none ∧ e.value = v ∧ e.createdAt = now
      ∧ e.lruStart = now ∧ e.ttl = opts.ttl := by
  by_cases hk : k = ""
  · exfalso
    subst hk
    simp [memSetRaw, validateKey] at h
  · by_cases hv : v = .undef
    · exfalso
      subst hv
      simp [memSetRaw, validateKey, hk] at h
    · refine ⟨hk, ?_⟩
      unfold memSetRaw
      rw [if_neg (by simp [validateKey, hk]), if_neg hv]
      cases halg : alGet st.cache k with
      | some old =>
        refine ⟨{ value := v
                  createdAt := now
                  lastAccessed := now
                  ttl := opts.ttl
                  tags := opts.tags
                  deps := opts.dependencies
                  lruStart := now
                  lruTtl := match opts.ttl with
                    | some t => if t = 0 then st.defaultTtl else some (t * 1000)
                    | none => st.defaultTtl },
          alRemove st.cache k, ?_, alGet_alRemove_self _ _, rfl, rfl, rfl, rfl⟩
        simp [halg, updateIndexes, cleanupIndexes]
      | none =>
        refine ⟨{ value := v
                  createdAt := now
                  lastAccessed := now
                  ttl := opts.ttl
                  tags := opts.tags
                  deps := opts.dependencies
                  lruStart := now
                  lruTtl := match opts.ttl with
                    | some t => if t = 0 then st.defaultTtl else some (t * 1000)
                    | none => st.defaultTtl },
          st.cache, ?_, halg, rfl, rfl, rfl, rfl⟩
        simp [halg, updateIndexes]

/-- The raw `set` never touches the breaker fields. -/
theorem memSetRaw_breakerFields (now : Nat) (k : String) (v : Val)
    (opts : SetOptions) (st : MemStore) :
    (memSetRaw now k v opts st).2.cb = st.cb
    ∧ (memSetRaw now k v opts st).2.cbConfig = st.cbConfig := by
  unfold memSetRaw
  split
  · exact ⟨rfl, rfl⟩
  · split
    · exact ⟨rfl, rfl⟩
    · cases halg : alGet st.cache k <;>
        simp [halg, updateIndexes, cleanupIndexes]

/-- After a successful breaker-wrapped call whose raw operation leaves the
breaker fields alone, the store is ready again (success resets failures and
keeps the gate-closed breaker). -/
theorem withCB_ok_ready {α : Type} {st : MemStore} {now : Nat}
    {op : MemStore → Except Err α × MemStore} {a : α}
    (hpres : ∀ s, (op s).2.cb = s.cb ∧ (op s).2.cbConfig = s.cbConfig)
    (h : (withCB st now op).1 = .ok a) :
    cbReady (withCB st now op).2 := by
  obtain ⟨ca, ti, di, dt, cbc, cbv⟩ := st
  cases cbc with
  | none =>
    intro cfg cb hcfg hcb
    have hW : withCB ⟨ca, ti, di, dt, none, cbv⟩ now op
        = op ⟨ca, ti, di, dt, none, cbv⟩ := rfl
    rw [hW] at hcfg
    rw [(hpres _).2] at hcfg
    cases hcfg
  | some cfg0 =>
    cases cbv with
    | none =>
      intro cfg cb hcfg hcb
      have hW : withCB ⟨ca, ti, di, dt, some cfg0, none⟩ now op
          = op ⟨ca, ti, di, dt, some cfg0, none⟩ := rfl
      rw [hW] at hcb
      rw [(hpres _).1] at hcb
      cases hcb
    | some cb0 =>
      intro cfg cb hcfg hcb
      unfold withCB at h hcb
      cases hg : cbGate cb0 now with
      | none =>
        simp only [hg] at h
        cases h
      | some cb1 =>
        simp only [hg] at h hcb
        cases hp : (op ⟨ca, ti, di, dt, some cfg0, some cb1⟩).1 with
        | ok b =>
          simp only [hp] at hcb
          cases hcb
          show (cbAfter cfg0 cb1 now true).isOpen = false
          unfold cbAfter
          simpa using cbGate_isOpen_false hg
        | error e =>
          simp only [hp] at h
          cases h

/-- A raw `get` on a live, fresh entry returns its value. -/
theorem memGetRaw_hit {now : Nat} {k : String} {st : MemStore} {e : Entry}
    (hk : k ≠ "") (h : alGet st.cache k = some e)
    (hstale : lruStale e now = false)
    (hexp : isExpired e.createdAt e.ttl now = false) :
    (memGetRaw now k st).1 = .ok (some e.value) := by
  unfold memGetRaw
  rw [if_neg (by simp [validateKey, hk])]
  simp only [h]
  rw [if_neg (by simp [hstale])]
  rw [if_neg (by simp [hexp])]

/-- Read-after-write: a `set` that succeeded is visible to an immediate
`get` of the same key at the same instant. -/
theorem memGet_after_memSet (st : MemStore) (now : Nat) (k : String) (v : Val)
    (opts : SetOptions) {u : Unit} (h : (memSet st now k v opts).1 = .ok u) :
    (memGet (memSet st now k v opts).2 now k).1 = .ok (some v) := by
  unfold memSet at h ⊢
  obtain ⟨x, hraw, hcore⟩ :=
    @withCB_ok Unit st now (memSetRaw now k v opts) u h
  obtain ⟨hk, e, rest, hcache, hrest, hval, hcreated, hstart, httl⟩ :=
    memSetRaw_ok_shape hraw
  have hready : cbReady (withCB st now (memSetRaw now k v opts)).2 :=
    withCB_ok_ready (fun s => memSetRaw_breakerFields now k v opts s) h
  obtain ⟨y, hy, _⟩ :=
    @withCB_ready (Option Val) ((withCB st now (memSetRaw now k v opts)).2)
      now (memGetRaw now k) hready
  unfold memGet
  rw [hy]
  have halg : alGet ({ (withCB st now (memSetRaw now k v opts)).2 with
      cb := y } : MemStore).cache k = some e := by
    show alGet (withCB st now (memSetRaw now k v opts)).2.cache k = some e
    rw [hcore.1, hcache]
    exact alGet_append_right rest k e hrest
  rw [memGetRaw_hit hk halg (lruStale_fresh e now hstart)
    (by rw [hcreated]; exact isExpired_now e.ttl now)]
  rw [hval]

/-! ## Validation propagation (claim C3) -/

/-- A breaker-less `get` with the empty key raises the `validateKey`
`StoreError` before touching any state. -/
theorem memGet_emptyKey (st : MemStore) (now : Nat) (h : st.cbConfig = none) :
    memGet st now "" = (.error .invalidKey, st) := by
  unfold memGet
  rw [withCB_noBreaker now h]
  simp [memGetRaw, validateKey]

/-- A breaker-less `set` of `undefined` raises the `validateValue`
`StoreError` before touching any state. -/
theorem memSet_undefValue (st : MemStore) (now : Nat) (k : String)
    (opts : SetOptions) (h : st.cbConfig = none) (hk : k ≠ "") :
    memSet st now k .undef opts = (.error .invalidValue, st) := by
  unfold memSet
  rw [withCB_noBreaker now h]
  simp [memSetRaw, validateKey, hk]

/-- The layered `get` loop swallows the per-store validation errors: every
tier throws, every throw is caught and logged, and the walk falls through. -/
theorem layeredGetGo_invalidKey (now : Nat) :
    ∀ (sts pre : List MemStore), (∀ st ∈ sts, st.cbConfig = none) →
      layeredGetGo now "" pre sts = (none, pre ++ sts) := by
  intro sts
  induction sts with
  | nil =>
    intro pre _
    simp [layeredGetGo]
  | cons st sts ih =>
    intro pre hall
    have hst := memGet_emptyKey st now (hall st (by simp))
    simp only [layeredGetGo, hst]
    rw [ih (pre ++ [st]) (fun s hs => hall s (by simp [hs]))]
    simp

/-- A layered `set` of `undefined` fails in every store, so the aggregated
all-stores-failed error is thrown, carrying one validation failure per
store. -/
theorem layeredSet_undef_allFail (sts : List MemStore) (now : Nat)
    (k : String) (opts : SetOptions) (hk : k ≠ "")
    (hall : ∀ st ∈ sts, st.cbConfig = none) :
    (layeredSet sts now k .undef opts).1 =
      .error (.allFailed (List.replicate sts.length .invalidValue)) := by
  unfold layeredSet
  have hfold : ∀ (l : List MemStore) (accSt : List MemStore) (accErr : List Err),
      (∀ st ∈ l, st.cbConfig = none) →
      l.foldl
        (fun (acc : List MemStore × List Err) st =>
          match memSet st now k Val.undef opts with
          | (.ok _, st') => (acc.1 ++ [st'], acc.2)
          | (.error e, st') => (acc.1 ++ [st'], acc.2 ++ [e]))
        (accSt, accErr)
      = (accSt ++ l, accErr ++ List.replicate l.length Err.invalidValue) := by
    intro l
    induction l with
    | nil =>
      intro accSt accErr _
      simp
    | cons st l ihl =>
      intro accSt accErr hall'
      have hst := memSet_undefValue st now k opts (hall' st (by simp)) hk
      simp only [List.foldl_cons, hst]
      rw [ihl (accSt ++ [st]) (accErr ++ [Err.invalidValue])
        (fun s hs => hall' s (by simp [hs]))]
      simp [List.replicate_succ]
  rw [hfold sts [] [] hall]
  simp

/-- C3 (amended): stores validate the key (non-empty) and the value
(defined) before any store I/O and synchronously throw `StoreError` — there
is no `ValidationError` class — but at the public layered API these
validation errors follow the generic propagation policy: `get` with an
invalid key catches every per-store error and returns null to the caller,
and `set` with an undefined value surfaces only the aggregated
all-stores-failed error. -/
theorem validation_swallowedAtPublicApi :
    (∀ (st : MemStore) (now : Nat), st.cbConfig = none →
      memGet st now "" = (.error .invalidKey, st))
    ∧ (∀ (st : MemStore) (now : Nat) (k : String) (opts : SetOptions),
        st.cbConfig = none → k ≠ "" →
        memSet st now k .undef opts = (.error .invalidValue, st))
    ∧ (∀ (stores : List MemStore) (now : Nat),
        (∀ st ∈ stores, st.cbConfig = none) →
        layeredGet stores now "" = (none, stores))
    ∧ (∀ (stores : List MemStore) (now : Nat) (k : String) (opts : SetOptions),
        k ≠ "" → (∀ st ∈ stores, st.cbConfig = none) →
        (layeredSet stores now k .undef opts).1 =
          .error (.allFailed (List.replicate stores.length .invalidValue))) := by
  refine ⟨memGet_emptyKey, memSet_undefValue, ?_, ?_⟩
  · intro stores now hall
    unfold layeredGet
    rw [layeredGetGo_invalidKey now stores [] hall]
    simp
  · intro stores now k opts hk hall
    exact layeredSet_undef_allFail stores now k opts hk hall

/-- Witness for `validation_swallowedAtPublicApi`. -/
theorem validation_swallowedAtPublicApi_witness :
    memGet emptyStore 3 "" = (.error .invalidKey, emptyStore)
    ∧ layeredGet [emptyStore, c5StoreB] 1 "" = (none, [emptyStore, c5StoreB])
    ∧ (layeredSet [emptyStore] 0 "k" .undef ⟨none, [], []⟩).1 =
        .error (.allFailed [.invalidValue]) := by
  refine ⟨validation_swallowedAtPublicApi.1 emptyStore 3 rfl, ?_, ?_⟩
  · exact validation_swallowedAtPublicApi.2.2.1 [emptyStore, c5StoreB] 1
      (by decide)
  · exact validation_swallowedAtPublicApi.2.2.2 [emptyStore] 0 "k" ⟨none, [], []⟩
      (by decide) (by decide)

/-- C3 counterexample: the claim says every public cache operation with an
invalid key raises a `ValidationError` synchronously to the caller; in
fact the public layered `get` with the empty key returns a plain null miss
and leaves the stores untouched (the per-store `StoreError`s are caught
inside the loop), and no `ValidationError` class exists in the codebase. -/
theorem cacheGet_invalidKey_returnsNull :
    layeredGet [emptyStore] 0 "" = (none, [emptyStore]) := by decide

/-! ## Read-through promotion (claim C5) -/

/-- C5: with tiers [A, B], a key missing from A and served by B, the
layered `get` returns B's value; the promotion write into A happens with
its failures caught (the overall result carries the value no matter how
the promotion went); and when the promotion write succeeds, a direct read
of A afterwards returns the same value. -/
theorem layered_readThrough_promotes (A B : MemStore) (now : Nat)
    (k : String) (v : Val)
    (hA : (memGet A now k).1 = .ok none)
    (hB : (memGet B now k).1 = .ok (some v)) :
    (layeredGet [A, B] now k).1 = some v
    ∧ (layeredGet [A, B] now k).2 =
        [(memSet (memGet A now k).2 now k v ⟨none, [], []⟩).2,
          (memGet B now k).2]
    ∧ (∀ u, (memSet (memGet A now k).2 now k v ⟨none, [], []⟩).1 = .ok u →
        (memGet (memSet (memGet A now k).2 now k v ⟨none, [], []⟩).2 now k).1
          = .ok (some v)) := by
  rcases hA2 : memGet A now k with ⟨rA, A2⟩
  rcases hB2 : memGet B now k with ⟨rB, B2⟩
  rw [hA2] at hA
  rw [hB2] at hB
  simp only at hA hB
  subst hA
  subst hB
  refine ⟨?_, ?_, ?_⟩
  · unfold layeredGet
    simp only [layeredGetGo, hA2, hB2, List.nil_append]
  · unfold layeredGet
    simp only [layeredGetGo, hA2, hB2, List.nil_append]
    simp [promoteValue]
  · intro u hu
    exact memGet_after_memSet _ now k v ⟨none, [], []⟩ hu

/-- Witness for `layered_readThrough_promotes`: tier A empty, tier B
holding `k`; the read returns the value, promotes it into A, and A then
serves it directly. -/
theorem layered_readThrough_promotes_witness :
    (layeredGet [emptyStore, c5StoreB] 0 "k").1 = some (.prim 5)
    ∧ (memGet (memSet (memGet emptyStore 0 "k").2 0 "k" (.prim 5)
        ⟨none, [], []⟩).2 0 "k").1 = .ok (some (.prim 5)) := by
  have h := layered_readThrough_promotes emptyStore c5StoreB 0 "k" (.prim 5)
    (by decide) (by decide)
  exact ⟨h.1, h.2.2 () (by decide)⟩

/-! ## Index-map lemmas (claim C8) -/

/-- An absent identifier has no pair in the index map. -/
theorem idxGet_none_not_mem {idx : List (String × List String)} {t : String}
    (h : idxGet idx t = none) : ∀ x ∈ idx, x.1 ≠ t := by
  intro x hx
  unfold idxGet at h
  cases hf : (idx.find? fun b => b.1 = t) with
  | some y => rw [hf] at h; cases h
  | none =>
    have hnp := List.find?_eq_none.mp hf x hx
    intro heq
    exact hnp (by simp [heq])

/-- A found bucket is a pair of the index map. -/
theorem idxGet_some_mem {idx : List (String × List String)} {t : String}
    {b : List String} (h : idxGet idx t = some b) : (t, b) ∈ idx := by
  unfold idxGet at h
  cases hf : (idx.find? fun x => x.1 = t) with
  | none => rw [hf] at h; cases h
  | some y =>
    rw [hf] at h
    simp only [Option.map_some', Option.some.injEq] at h
    have h1 : y.1 = t := by simpa using List.find?_some hf
    have h2 := List.mem_of_find?_eq_some hf
    have : (t, b) = y := by
      rw [← h1, ← h]
    rw [this]
    exact h2

/-- Where a pair of `idxAdd idx t k` can come from. -/
theorem mem_idxAdd {idx : List (String × List String)} {t k : String}
    {x : String × List String} (hx : x ∈ idxAdd idx t k) :
    (x ∈ idx ∧ x.1 ≠ t)
    ∨ (x.1 = t ∧ ∃ b, idxGet idx t = some b ∧ (x.2 = b ∨ x.2 = b ++ [k]))
    ∨ (x.1 = t ∧ idxGet idx t = none ∧ x.2 = [k]) := by
  cases hg : idxGet idx t with
  | some b =>
    unfold idxAdd at hx
    rw [hg] at hx
    simp only [] at hx
    rcases List.mem_map.mp hx with ⟨y, hy, hmap⟩
    by_cases hyt : y.1 = t
    · rw [if_pos hyt] at hmap
      right; left
      refine ⟨by rw [← hmap], b, rfl, ?_⟩
      by_cases hkb : k ∈ b
      · left; rw [← hmap]; simp [hkb]
      · right; rw [← hmap]; simp [hkb]
    · rw [if_neg hyt] at hmap
      left
      rw [← hmap]
      exact ⟨hy, hyt⟩
  | none =>
    unfold idxAdd at hx
    rw [hg] at hx
    simp only [] at hx
    rcases List.mem_append.mp hx with hx' | hx'
    · exact Or.inl ⟨hx', idxGet_none_not_mem hg x hx'⟩
    · right; right
      simp only [List.mem_singleton] at hx'
      rw [hx']
      exact ⟨rfl, rfl, rfl⟩

/-- Where a pair of `idxRemoveKey idx t k` can come from. -/
theorem mem_idxRemoveKey {idx : List (String × List String)} {t k : String}
    {x : String × List String} (hx : x ∈ idxRemoveKey idx t k) :
    (x ∈ idx ∧ x.1 ≠ t)
    ∨ (x.1 = t ∧ ∃ b, idxGet idx t = some b
        ∧ x.2 = b.filter (fun y => y ≠ k) ∧ x.2 ≠ []) := by
  cases hg : idxGet idx t with
  | none =>
    unfold idxRemoveKey at hx
    rw [hg] at hx
    simp only [] at hx
    exact Or.inl ⟨hx, idxGet_none_not_mem hg x hx⟩
  | some b =>
    unfold idxRemoveKey at hx
    rw [hg] at hx
    simp only [] at hx
    by_cases hb : b.filter (fun y => y ≠ k) = []
    · rw [if_pos hb] at hx
      have hmem := List.mem_filter.mp hx
      refine Or.inl ⟨hmem.1, ?_⟩
      have := hmem.2
      intro heq
      exact (by simpa using this : x.1 ≠ t) heq
    · rw [if_neg hb] at hx
      rcases List.mem_map.mp hx with ⟨y, hy, hmap⟩
      by_cases hyt : y.1 = t
      · rw [if_pos hyt] at hmap
        right
        rw [← hmap]
        exact ⟨rfl, b, rfl, rfl, hb⟩
      · rw [if_neg hyt] at hmap
        left
        rw [← hmap]
        exact ⟨hy, hyt⟩

/-- Removing a key from its own identifier's bucket leaves no trace of it. -/
theorem idxRemoveKey_self {idx : List (String × List String)} {t k : String} :
    ∀ x ∈ idxRemoveKey idx t k, x.1 = t → k ∉ x.2 := by
  intro x hx hxt
  rcases mem_idxRemoveKey hx with ⟨_, hne⟩ | ⟨_, b, _, hb, _⟩
  · exact absurd hxt hne
  · rw [hb]
    intro hk
    have := (List.mem_filter.mp hk).2
    simp at this

/-- Removal steps never re-introduce a key into a clean identifier. -/
theorem idxRemoveKey_preserve {idx : List (String × List String)}
    {t t' k : String} (h : ∀ y ∈ idx, y.1 = t → k ∉ y.2) :
    ∀ x ∈ idxRemoveKey idx t' k, x.1 = t → k ∉ x.2 := by
  intro x hx hxt
  rcases mem_idxRemoveKey hx with ⟨hxi, _⟩ | ⟨_, b, _, hb, _⟩
  · exact h x hxi hxt
  · rw [hb]
    intro hk
    have := (List.mem_filter.mp hk).2
    simp at this

/-- Cleanliness survives the whole removal fold. -/
theorem fold_remove_preserve {k t : String} :
    ∀ (ts : List String) (idx : List (String × List String)),
      (∀ y ∈ idx, y.1 = t → k ∉ y.2) →
      ∀ x ∈ ts.foldl (fun i t' => idxRemoveKey i t' k) idx, x.1 = t → k ∉ x.2 := by
  intro ts
  induction ts with
  | nil =>
    intro idx h x hx
    exact h x hx
  | cons t0 ts ih =>
    intro idx h x hx hxt
    exact ih (idxRemoveKey idx t0 k) (idxRemoveKey_preserve h) x hx hxt

/-- After the fold has processed an identifier, none of its buckets holds
the removed key any more. -/
theorem fold_remove_processed {k : String} :
    ∀ (ts : List String) (idx : List (String × List String)) (t : String),
      t ∈ ts →
      ∀ x ∈ ts.foldl (fun i t' => idxRemoveKey i t' k) idx, x.1 = t → k ∉ x.2 := by
  intro ts
  induction ts with
  | nil => intro idx t ht; cases ht
  | cons t0 ts ih =>
    intro idx t ht x hx hxt
    rcases List.mem_cons.mp ht with rfl | ht'
    · exact fold_remove_preserve ts (idxRemoveKey idx t k)
        idxRemoveKey_self x hx hxt
    · exact ih (idxRemoveKey idx t0 k) t ht' x hx hxt

/-- Every bucket surviving the removal fold is non-empty and drawn from an
original bucket of the same identifier. -/
theorem fold_remove_content {k : String}
    {idx0 : List (String × List String)} :
    ∀ (ts : List String) (idx : List (String × List String)),
      (∀ x ∈ idx, x.2 ≠ [] ∧ ∀ k' ∈ x.2, ∃ b0, (x.1, b0) ∈ idx0 ∧ k' ∈ b0) →
      ∀ x ∈ ts.foldl (fun i t => idxRemoveKey i t k) idx,
        x.2 ≠ [] ∧ ∀ k' ∈ x.2, ∃ b0, (x.1, b0) ∈ idx0 ∧ k' ∈ b0 := by
  intro ts
  induction ts with
  | nil =>
    intro idx h x hx
    exact h x hx
  | cons t0 ts ih =>
    intro idx h x hx
    refine ih (idxRemoveKey idx t0 k) ?_ x hx
    intro y hy
    rcases mem_idxRemoveKey hy with ⟨hyi, _⟩ | ⟨hyt, b, hg, hb, hbne⟩
    · exact h y hyi
    · refine ⟨hbne, ?_⟩
      intro k' hk'
      rw [hb] at hk'
      have hk'b := (List.mem_filter.mp hk').1
      rcases h (y.1, b) (by rw [hyt]; exact idxGet_some_mem hg) with ⟨_, hmapb⟩
      exact hmapb k' hk'b

/-! ## Association-list update lemmas -/

/-- Updating a present key is visible to a lookup of that key. -/
theorem alGet_alUpdate_self {l : List (String × Entry)} {k : String}
    {e e' : Entry} (h : alGet l k = some e) :
    alGet (alUpdate l k e') k = some e' := by
  induction l with
  | nil => cases h
  | cons x l ih =>
    unfold alGet alUpdate at *
    cases hx : (decide (x.1 = k)) with
    | true =>
      have hx' : x.1 = k := of_decide_eq_true hx
      simp [List.find?_cons, hx']
    | false =>
      have hx' : ¬ x.1 = k := of_decide_eq_false hx
      simp only [List.find?_cons, hx] at h
      simp only [List.map_cons, if_neg hx', List.find?_cons, hx]
      exact ih h

/-- Updating one key leaves lookups of other keys unchanged. -/
theorem alGet_alUpdate_ne {l : List (String × Entry)} {k k' : String}
    {e' : Entry} (h : k' ≠ k) : alGet (alUpdate l k e') k' = alGet l k' := by
  induction l with
  | nil => rfl
  | cons x l ih =>
    unfold alGet alUpdate at *
    by_cases hx : x.1 = k
    · have hk : ¬ (k = k') := fun hq => h hq.symm
      simp only [List.map_cons, if_pos hx, List.find?_cons]
      rw [show (decide (k = k')) = false by simp [hk],
        show (decide (x.1 = k')) = false by simp [hx ▸ hk]]
      exact ih
    · simp only [List.map_cons, if_neg hx, List.find?_cons]
      cases hx' : (decide (x.1 = k')) with
      | true => rfl
      | false => exact ih

/-- Removing one key leaves lookups of other keys unchanged. -/
theorem alGet_alRemove_ne {l : List (String × Entry)} {k k' : String}
    (h : k' ≠ k) : alGet (alRemove l k) k' = alGet l k' := by
  induction l with
  | nil => rfl
  | cons x l ih =>
    unfold alGet alRemove at *
    by_cases hx : x.1 = k
    · rw [List.filter_cons_of_neg (by simp [hx])]
      rw [show ((x :: l).find? fun kv => kv.1 = k') = l.find? fun kv => kv.1 = k' by
        rw [List.find?_cons, show (decide (x.1 = k')) = false by
          simp [hx]
          exact fun hq => h (hq ▸ hx ▸ rfl)]]
      exact ih
    · rw [List.filter_cons_of_pos (by simp [hx])]
      rw [List.find?_cons, List.find?_cons]
      cases hx' : (decide (x.1 = k')) with
      | true => rfl
      | false => exact ih

/-- A lookup that succeeds still succeeds after appending more entries. -/
theorem alGet_append_of_some {l l₂ : List (String × Entry)} {k : String}
    {e : Entry} (h : alGet l k = some e) : alGet (l ++ l₂) k = some e := by
  induction l with
  | nil => cases h
  | cons x l ih =>
    unfold alGet at *
    rw [List.cons_append, List.find?_cons]
    rw [List.find?_cons] at h
    cases hx : (decide (x.1 = k)) with
    | true => rw [hx] at h; exact h
    | false => rw [hx] at h; exact ih h

/-! ## bucketsOk preservation -/

/-- Adding a key that exists with the identifier among its labels keeps the
index well-formed. -/
theorem bucketsOk_idxAdd {f : Entry → List String}
    {cache : List (String × Entry)} {idx : List (String × List String)}
    {t k : String} {e : Entry}
    (hinv : bucketsOk f cache idx) (he : alGet cache k = some e)
    (ht : t ∈ f e) : bucketsOk f cache (idxAdd idx t k) := by
  intro x hx
  rcases mem_idxAdd hx with ⟨hxi, _⟩ | ⟨hx1, b, hg, hb⟩ | ⟨hx1, _, hb⟩
  · exact hinv x hxi
  · have hb0 := hinv (t, b) (idxGet_some_mem hg)
    constructor
    · rcases hb with hb | hb <;> rw [hb]
      · exact hb0.1
      · simp
    · intro k' hk'
      rw [hx1]
      rcases hb with hb | hb <;> rw [hb] at hk'
      · exact hb0.2 k' hk'
      · rcases List.mem_append.mp hk' with h' | h'
        · exact hb0.2 k' h'
        · simp only [List.mem_singleton] at h'
          subst h'
          exact ⟨e, he, ht⟩
  · constructor
    · rw [hb]; simp
    · intro k' hk'
      rw [hb] at hk'
      simp only [List.mem_singleton] at hk'
      subst hk'
      rw [hx1]
      exact ⟨e, he, ht⟩

/-- `updateIndexes`' fold keeps the index well-formed when the key exists
and all folded identifiers are among its labels. -/
theorem bucketsOk_updateFold {f : Entry → List String}
    {cache : List (String × Entry)} {k : String} {e : Entry}
    (he : alGet cache k = some e) :
    ∀ (ts : List String) (idx : List (String × List String)),
      (∀ t ∈ ts, t ∈ f e) → bucketsOk f cache idx →
      bucketsOk f cache (ts.foldl (fun i t => idxAdd i t k) idx) := by
  intro ts
  induction ts with
  | nil =>
    intro idx _ hinv
    exact hinv
  | cons t ts ih =>
    intro idx hts hinv
    exact ih (idxAdd idx t k)
      (fun t' ht' => hts t' (by simp [ht']))
      (bucketsOk_idxAdd hinv he (hts t (by simp)))

/-- Replacing an entry without touching its labels keeps the index
well-formed. -/
theorem bucketsOk_cache_update {f : Entry → List String}
    {cache : List (String × Entry)} {idx : List (String × List String)}
    {k : String} {e e' : Entry}
    (hinv : bucketsOk f cache idx) (he : alGet cache k = some e)
    (hf : f e' = f e) : bucketsOk f (alUpdate cache k e') idx := by
  intro x hx
  refine ⟨(hinv x hx).1, fun k' hk' => ?_⟩
  rcases (hinv x hx).2 k' hk' with ⟨e0, he0, hfe0⟩
  by_cases hkk : k' = k
  · subst hkk
    have he0e : e = e0 := by
      have := he.symm.trans he0
      injection this
    refine ⟨e', alGet_alUpdate_self he, ?_⟩
    rw [hf, he0e]
    exact hfe0
  · exact ⟨e0, by rw [alGet_alUpdate_ne hkk]; exact he0, hfe0⟩

/-- Appending a fresh entry keeps the index well-formed. -/
theorem bucketsOk_cache_append {f : Entry → List String}
    {cache : List (String × Entry)} {idx : List (String × List String)}
    {k : String} {e : Entry} (hinv : bucketsOk f cache idx) :
    bucketsOk f (cache ++ [(k, e)]) idx := by
  intro x hx
  refine ⟨(hinv x hx).1, fun k' hk' => ?_⟩
  rcases (hinv x hx).2 k' hk' with ⟨e0, he0, hfe0⟩
  exact ⟨e0, alGet_append_of_some he0, hfe0⟩

/-- Dropping buckets keeps the index well-formed. -/
theorem bucketsOk_filter {f : Entry → List String}
    {cache : List (String × Entry)} {idx : List (String × List String)}
    {p : String × List String → Bool} (hinv : bucketsOk f cache idx) :
    bucketsOk f cache (idx.filter p) :=
  fun x hx => hinv x (List.mem_filter.mp hx).1

/-- The dispose hook (`cleanupIndexes` over the removed entry's labels)
keeps the index well-formed w.r.t. the shrunken cache. -/
theorem bucketsOk_dispose {f : Entry → List String}
    {cache : List (String × Entry)} {idx : List (String × List String)}
    {k : String} {e : Entry}
    (hinv : bucketsOk f cache idx) (he : alGet cache k = some e) :
    bucketsOk f (alRemove cache k)
      ((f e).foldl (fun i t => idxRemoveKey i t k) idx) := by
  intro x hx
  have hbase : ∀ y ∈ idx, y.2 ≠ [] ∧ ∀ k' ∈ y.2, ∃ b0, (y.1, b0) ∈ idx ∧ k' ∈ b0 := by
    intro y hy
    exact ⟨(hinv y hy).1, fun k' hk' => ⟨y.2, by rw [Prod.mk.eta]; exact hy, hk'⟩⟩
  have hQ := fold_remove_content (f e) idx hbase x hx
  refine ⟨hQ.1, fun k' hk' => ?_⟩
  rcases hQ.2 k' hk' with ⟨b0, hb0, hk'b0⟩
  rcases (hinv (x.1, b0) hb0).2 k' hk'b0 with ⟨e0, he0, hfe0⟩
  by_cases hkk : k' = k
  · exfalso
    subst hkk
    have he0e : e = e0 := by
      have := he.symm.trans he0
      injection this
    have hx1f : x.1 ∈ f e := by
      rw [he0e]
      exact hfe0
    exact fold_remove_processed (f e) idx x.1 hx1f x hx rfl hk'
  · exact ⟨e0, by rw [alGet_alRemove_ne hkk]; exact he0, hfe0⟩

/-! ## Per-operation invariant preservation -/

/-- Deleting a key (with its dispose hook) preserves the index invariant. -/
theorem indexInv_disposeDelete {st : MemStore} (k : String)
    (hinv : IndexInv st) : IndexInv (disposeDelete st k).1 := by
  unfold disposeDelete
  cases he : alGet st.cache k with
  | none => exact hinv
  | some e => exact ⟨bucketsOk_dispose hinv.1 he, bucketsOk_dispose hinv.2 he⟩

/-- The delete-count folds of the invalidators preserve the invariant. -/
theorem indexInv_disposeFold :
    ∀ (b : List String) (st0 : MemStore) (n : Nat), IndexInv st0 →
      IndexInv (b.foldl
        (fun (acc : MemStore × Nat) k =>
          let q := disposeDelete acc.1 k
          (q.1, acc.2 + if q.2 then 1 else 0)) (st0, n)).1 := by
  intro b
  induction b with
  | nil =>
    intro st0 n h
    exact h
  | cons k b ih =>
    intro st0 n h
    exact ih (disposeDelete st0 k).1 _ (indexInv_disposeDelete k h)

/-- The breaker wrapper preserves any invariant its raw operation
preserves (the wrapper only touches the `cb` field). -/
theorem indexInv_withCB {α : Type} {st : MemStore} {now : Nat}
    {op : MemStore → Except Err α × MemStore}
    (hop : ∀ s : MemStore, IndexInv s → IndexInv (op s).2)
    (hinv : IndexInv st) : IndexInv (withCB st now op).2 := by
  obtain ⟨ca, ti, di, dt, cbc, cbv⟩ := st
  cases cbc with
  | none => exact hop _ hinv
  | some cfg =>
    cases cbv with
    | none => exact hop _ hinv
    | some cb =>
      unfold withCB
      cases hg : cbGate cb now with
      | none =>
        simp only [hg]
        exact hinv
      | some cb1 =>
        simp only [hg]
        cases hp : (op ⟨ca, ti, di, dt, some cfg, some cb1⟩).1 with
        | ok a =>
          simp only [hp]
          exact hop _ hinv
        | error e =>
          simp only [hp]
          exact hop _ hinv

/-- Raw `get` preserves the index invariant. -/
theorem indexInv_memGetRaw (now : Nat) (k : String) {st : MemStore}
    (hinv : IndexInv st) : IndexInv (memGetRaw now k st).2 := by
  unfold memGetRaw
  simp only []
  split
  · exact hinv
  · split
    · exact hinv
    · rename_i e heq
      split
      · exact indexInv_disposeDelete k hinv
      · have hinv1 : IndexInv
            { st with cache := alUpdate st.cache k { e with lruStart := now } } :=
          ⟨bucketsOk_cache_update hinv.1 heq rfl,
            bucketsOk_cache_update hinv.2 heq rfl⟩
        split
        · exact indexInv_disposeDelete k hinv1
        · exact ⟨bucketsOk_cache_update hinv1.1 (alGet_alUpdate_self heq) rfl,
            bucketsOk_cache_update hinv1.2 (alGet_alUpdate_self heq) rfl⟩

/-- Raw `set` preserves the index invariant. -/
theorem indexInv_memSetRaw (now : Nat) (k : String) (v : Val)
    (opts : SetOptions) {st : MemStore} (hinv : IndexInv st) :
    IndexInv (memSetRaw now k v opts st).2 := by
  unfold memSetRaw
  split
  · exact hinv
  · split
    · exact hinv
    · cases halg : alGet st.cache k with
      | some old =>
        simp only [halg]
        have hinv1 : IndexInv (cleanupIndexes
            { st with cache := alRemove st.cache k } k old) :=
          ⟨bucketsOk_dispose hinv.1 halg, bucketsOk_dispose hinv.2 halg⟩
        have hfree : alGet (alRemove st.cache k) k = none :=
          alGet_alRemove_self st.cache k
        exact ⟨bucketsOk_updateFold (alGet_append_right _ k _ hfree) _ _
            (fun t ht => ht) (bucketsOk_cache_append hinv1.1),
          bucketsOk_updateFold (alGet_append_right _ k _ hfree) _ _
            (fun d hd => hd) (bucketsOk_cache_append hinv1.2)⟩
      | none =>
        simp only [halg]
        exact ⟨bucketsOk_updateFold (alGet_append_right _ k _ halg) _ _
            (fun t ht => ht) (bucketsOk_cache_append hinv.1),
          bucketsOk_updateFold (alGet_append_right _ k _ halg) _ _
            (fun d hd => hd) (bucketsOk_cache_append hinv.2)⟩

/-- Raw `del` preserves the index invariant. -/
theorem indexInv_memDelRaw (k : String) {st : MemStore} (hinv : IndexInv st) :
    IndexInv (memDelRaw k st).2 := by
  unfold memDelRaw
  split
  · exact hinv
  · exact indexInv_disposeDelete k hinv

/-- Raw `clear` preserves (trivially re-establishes) the invariant. -/
theorem indexInv_memClearRaw {st : MemStore} :
    IndexInv (memClearRaw st).2 :=
  ⟨fun x hx => absurd hx (List.not_mem_nil x),
    fun x hx => absurd hx (List.not_mem_nil x)⟩

/-- Raw `exists` preserves the index invariant. -/
theorem indexInv_memExistsRaw (now : Nat) (k : String) {st : MemStore}
    (hinv : IndexInv st) : IndexInv (memExistsRaw now k st).2 := by
  unfold memExistsRaw
  split
  · exact hinv
  · split
    · exact hinv
    · rename_i e heq
      split
      · exact hinv
      · exact ⟨bucketsOk_cache_update hinv.1 heq rfl,
          bucketsOk_cache_update hinv.2 heq rfl⟩

/-- Raw `keys` does not change the store. -/
theorem indexInv_memKeysRaw (now : Nat) (pat : Option String) {st : MemStore}
    (hinv : IndexInv st) : IndexInv (memKeysRaw now pat st).2 := by
  unfold memKeysRaw
  cases pat with
  | none => exact hinv
  | some p => exact hinv

/-- Raw `invalidateByTag` preserves the index invariant. -/
theorem indexInv_memInvalidateByTagRaw (tag : String) {st : MemStore}
    (hinv : IndexInv st) : IndexInv (memInvalidateByTagRaw tag st).2 := by
  unfold memInvalidateByTagRaw
  split
  · exact hinv
  · rename_i bucket hb
    have hP := indexInv_disposeFold bucket st 0 hinv
    exact ⟨bucketsOk_filter hP.1, hP.2⟩

/-- Raw `invalidateByDependency` preserves the index invariant. -/
theorem indexInv_memInvalidateByDependencyRaw (d : String) {st : MemStore}
    (hinv : IndexInv st) :
    IndexInv (memInvalidateByDependencyRaw d st).2 := by
  unfold memInvalidateByDependencyRaw
  split
  · exact hinv
  · rename_i bucket hb
    have hP := indexInv_disposeFold bucket st 0 hinv
    exact ⟨hP.1, bucketsOk_filter hP.2⟩

/-- Raw `invalidateByPattern` preserves the index invariant. -/
theorem indexInv_memInvalidateByPatternRaw (now : Nat) (p : String)
    {st : MemStore} (hinv : IndexInv st) :
    IndexInv (memInvalidateByPatternRaw now p st).2 := by
  unfold memInvalidateByPatternRaw
  have hkeys : IndexInv (memKeys st now (some p)).2 :=
    indexInv_withCB (fun s h => indexInv_memKeysRaw now (some p) h) hinv
  cases hK : memKeys st now (some p) with
  | mk r st' =>
    cases r with
    | error e =>
      simp only
      rw [hK] at hkeys
      exact hkeys
    | ok ks =>
      simp only
      rw [hK] at hkeys
      exact indexInv_disposeFold ks st' 0 hkeys

/-- Every `MemoryStore` operation (and backend-native eviction) preserves
the index invariant. -/
theorem indexInv_applyOp {st : MemStore} (op : MemOp) (hinv : IndexInv st) :
    IndexInv (applyOp st op) := by
  cases op with
  | opGet now k =>
    exact indexInv_withCB (fun s h => indexInv_memGetRaw now k h) hinv
  | opSet now k v o =>
    exact indexInv_withCB (fun s h => indexInv_memSetRaw now k v o h) hinv
  | opDel now k =>
    exact indexInv_withCB (fun s h => indexInv_memDelRaw k h) hinv
  | opClear now =>
    exact indexInv_withCB (fun s _ => indexInv_memClearRaw) hinv
  | opHas now k =>
    exact indexInv_withCB (fun s h => indexInv_memExistsRaw now k h) hinv
  | opKeys now p =>
    exact indexInv_withCB (fun s h => indexInv_memKeysRaw now p h) hinv
  | opInvTag now t =>
    exact indexInv_withCB (fun s h => indexInv_memInvalidateByTagRaw t h) hinv
  | opInvPattern now p =>
    exact indexInv_withCB
      (fun s h => indexInv_memInvalidateByPatternRaw now p h) hinv
  | opInvDep now d =>
    exact indexInv_withCB
      (fun s h => indexInv_memInvalidateByDependencyRaw d h) hinv
  | opEvict k => exact indexInv_disposeDelete k hinv

/-- A fresh store satisfies the invariant. -/
theorem indexInv_initStore (dt : Option Nat) (cbc : Option CBConfig) :
    IndexInv (initStore dt cbc) :=
  ⟨fun x hx => absurd hx (List.not_mem_nil x),
    fun x hx => absurd hx (List.not_mem_nil x)⟩

/-- C8: in every reachable `MemoryStore` state, every key held by a tag or
dependency bucket currently exists in the cache and every bucket is
non-empty (removed keys are cleaned out of all their buckets and empty
buckets are dropped by the dispose hook), and every store operation —
set, get, del, clear, exists, keys, tag/pattern/dependency invalidation,
and backend-native eviction — preserves the (strengthened) invariant. -/
theorem memoryStore_index_invariant (dt : Option Nat) (cbc : Option CBConfig)
    (ops : List MemOp) :
    (∀ t b, (t, b) ∈ (runOps dt cbc ops).tagIndex →
      b ≠ [] ∧ ∀ k ∈ b, (alGet (runOps dt cbc ops).cache k).isSome = true)
    ∧ (∀ d b, (d, b) ∈ (runOps dt cbc ops).depIndex →
      b ≠ [] ∧ ∀ k ∈ b, (alGet (runOps dt cbc ops).cache k).isSome = true)
    ∧ (∀ (st : MemStore) (op : MemOp), IndexInv st → IndexInv (applyOp st op)) := by
  have hfold : ∀ (l : List MemOp) (st : MemStore), IndexInv st →
      IndexInv (l.foldl applyOp st) := by
    intro l
    induction l with
    | nil =>
      intro st h
      exact h
    | cons o l ih =>
      intro st h
      exact ih _ (indexInv_applyOp o h)
  have hrun : IndexInv (runOps dt cbc ops) :=
    hfold ops _ (indexInv_initStore dt cbc)
  refine ⟨?_, ?_, fun st op h => indexInv_applyOp op h⟩
  · intro t b hb
    rcases hrun.1 (t, b) hb with ⟨hne, hmem⟩
    refine ⟨hne, fun k hk => ?_⟩
    rcases hmem k hk with ⟨e, he, _⟩
    simp [he]
  · intro d b hb
    rcases hrun.2 (d, b) hb with ⟨hne, hmem⟩
    refine ⟨hne, fun k hk => ?_⟩
    rcases hmem k hk with ⟨e, he, _⟩
    simp [he]

/-- Witness for `memoryStore_index_invariant`. -/
theorem memoryStore_index_invariant_witness :
    IndexInv (applyOp emptyStore
      (MemOp.opSet 0 "a" (.prim 1) ⟨none, ["t"], ["d"]⟩)) :=
  (memoryStore_index_invariant none none []).2.2 emptyStore
    (MemOp.opSet 0 "a" (.prim 1) ⟨none, ["t"], ["d"]⟩)
    ⟨fun x hx => absurd hx (List.not_mem_nil x),
      fun x hx => absurd hx (List.not_mem_nil x)⟩

/-! ## Dependency-universe monotonicity (claim C1)

The cascading invalidation only ever reads values and deletes entries, so
the set of dependency identifiers readable from the stores never grows.
These lemmas track that through every operation the invalidator uses. -/

/-- A found entry is the payload of some cache pair. -/
theorem alGet_some_mem {l : List (String × Entry)} {k : String} {e : Entry}
    (h : alGet l k = some e) : ∃ kv ∈ l, kv.2 = e := by
  unfold alGet at h
  cases hf : (l.find? fun kv => kv.1 = k) with
  | none => rw [hf] at h; cases h
  | some y =>
    rw [hf] at h
    simp only [Option.map_some', Option.some.injEq] at h
    exact ⟨y, List.mem_of_find?_eq_some hf, h⟩

/-- A store whose every cache value appears in another store's cache has a
smaller dependency read-set. -/
theorem storeDeps_subset_of {st' st : MemStore}
    (h : ∀ kv ∈ st'.cache, ∃ kv2 ∈ st.cache, kv.2.value = kv2.2.value) :
    ∀ x ∈ storeDeps st', x ∈ storeDeps st := by
  intro x hx
  rcases List.mem_flatMap.mp hx with ⟨kv, hkv, hx'⟩
  rcases h kv hkv with ⟨kv2, hkv2, hval⟩
  exact List.mem_flatMap.mpr ⟨kv2, hkv2, hval ▸ hx'⟩

/-- Deletion only removes cache pairs. -/
theorem mem_disposeDelete_cache {st : MemStore} {k : String}
    {kv : String × Entry} (h : kv ∈ (disposeDelete st k).1.cache) :
    kv ∈ st.cache := by
  unfold disposeDelete at h
  cases he : alGet st.cache k with
  | none =>
    rw [he] at h
    exact h
  | some e =>
    rw [he] at h
    exact (List.mem_filter.mp h).1

/-- An update whose new entry keeps the old value preserves the multiset of
values (up to the first-found entry for the key). -/
theorem alUpdate_valsMono {l : List (String × Entry)} {k : String}
    {e e' : Entry} (he : alGet l k = some e) (hv : e'.value = e.value) :
    ∀ kv ∈ alUpdate l k e', ∃ kv2 ∈ l, kv.2.value = kv2.2.value := by
  intro kv hkv
  rcases List.mem_map.mp hkv with ⟨kv0, hkv0, hmap⟩
  by_cases h0 : kv0.1 = k
  · rw [if_pos h0] at hmap
    rcases alGet_some_mem he with ⟨kv2, hkv2, hval2⟩
    refine ⟨kv2, hkv2, ?_⟩
    rw [← hmap]
    show e'.value = kv2.2.value
    rw [hv, hval2]
  · rw [if_neg h0] at hmap
    exact ⟨kv0, hkv0, by rw [← hmap]⟩

/-- Raw `get` never introduces new cache values. -/
theorem memGetRaw_valsMono (now : Nat) (k : String) (st : MemStore) :
    ∀ kv ∈ (memGetRaw now k st).2.cache,
      ∃ kv2 ∈ st.cache, kv.2.value = kv2.2.value := by
  unfold memGetRaw
  simp only []
  split
  · intro kv hkv; exact ⟨kv, hkv, rfl⟩
  · split
    · intro kv hkv; exact ⟨kv, hkv, rfl⟩
    · rename_i e heq
      split
      · intro kv hkv
        exact ⟨kv, mem_disposeDelete_cache hkv, rfl⟩
      · split
        · intro kv hkv
          have hkv1 := mem_disposeDelete_cache hkv
          exact @alUpdate_valsMono st.cache k e { e with lruStart := now }
            heq rfl kv hkv1
        · intro kv hkv
          rcases @alUpdate_valsMono
              (alUpdate st.cache k { e with lruStart := now }) k
              { e with lruStart := now }
              { e with lruStart := now, lastAccessed := now }
              (@alGet_alUpdate_self st.cache k e { e with lruStart := now }
                heq) rfl kv hkv
            with ⟨kv1, hkv1, hv1⟩
          rcases @alUpdate_valsMono st.cache k e { e with lruStart := now }
              heq rfl kv1 hkv1 with ⟨kv2, hkv2, hv2⟩
          exact ⟨kv2, hkv2, hv1.trans hv2⟩

/-- Raw `keys` does not change the store at all. -/
theorem memKeysRaw_state (now : Nat) (pat : Option String) (st : MemStore) :
    (memKeysRaw now pat st).2 = st := by
  unfold memKeysRaw
  cases pat with
  | none => rfl
  | some p => rfl

/-- The delete-count fold only removes cache pairs. -/
theorem disposeFold_valsMono :
    ∀ (b : List String) (st0 : MemStore) (n : Nat),
      ∀ kv ∈ ((b.foldl
        (fun (acc : MemStore × Nat) k =>
          let q := disposeDelete acc.1 k
          (q.1, acc.2 + if q.2 then 1 else 0)) (st0, n)).1).cache,
        kv ∈ st0.cache := by
  intro b
  induction b with
  | nil =>
    intro st0 n kv hkv
    exact hkv
  | cons k b ih =>
    intro st0 n kv hkv
    exact mem_disposeDelete_cache (ih (disposeDelete st0 k).1 _ kv hkv)

/-- Raw `invalidateByDependency` never introduces new cache values. -/
theorem memInvalidateByDependencyRaw_valsMono (d : String) (st : MemStore) :
    ∀ kv ∈ (memInvalidateByDependencyRaw d st).2.cache,
      ∃ kv2 ∈ st.cache, kv.2.value = kv2.2.value := by
  unfold memInvalidateByDependencyRaw
  split
  · intro kv hkv; exact ⟨kv, hkv, rfl⟩
  · rename_i bucket hb
    intro kv hkv
    exact ⟨kv, disposeFold_valsMono bucket st 0 kv hkv, rfl⟩

/-- The breaker wrapper never introduces new cache values when its raw
operation does not. -/
theorem withCB_valsMono {α : Type} {st : MemStore} {now : Nat}
    {op : MemStore → Except Err α × MemStore}
    (hop : ∀ (s : MemStore), ∀ kv ∈ (op s).2.cache,
      ∃ kv2 ∈ s.cache, kv.2.value = kv2.2.value) :
    ∀ kv ∈ (withCB st now op).2.cache,
      ∃ kv2 ∈ st.cache, kv.2.value = kv2.2.value := by
  obtain ⟨ca, ti, di, dt, cbc, cbv⟩ := st
  cases cbc with
  | none => exact hop _
  | some cfg =>
    cases cbv with
    | none => exact hop _
    | some cb =>
      unfold withCB
      cases hg : cbGate cb now with
      | none =>
        simp only [hg]
        intro kv hkv
        exact ⟨kv, hkv, rfl⟩
      | some cb1 =>
        simp only [hg]
        cases hp : (op ⟨ca, ti, di, dt, some cfg, some cb1⟩).1 with
        | ok a =>
          simp only [hp]
          exact hop _
        | error e =>
          simp only [hp]
          exact hop _

/-- The store-level dependency read-set only shrinks under the full
(breaker-wrapped) `get`. -/
theorem storeDeps_memGet (st : MemStore) (now : Nat) (k : String) :
    ∀ x ∈ storeDeps (memGet st now k).2, x ∈ storeDeps st :=
  storeDeps_subset_of (withCB_valsMono (memGetRaw_valsMono now k))

/-- … and under the full `keys`. -/
theorem storeDeps_memKeys (st : MemStore) (now : Nat) (pat : Option String) :
    ∀ x ∈ storeDeps (memKeys st now pat).2, x ∈ storeDeps st :=
  storeDeps_subset_of (withCB_valsMono (fun s kv hkv =>
    ⟨kv, by rw [← memKeysRaw_state now pat s]; exact hkv, rfl⟩))

/-- … and under the full `invalidateByDependency`. -/
theorem storeDeps_memInvalidateByDependency (st : MemStore) (now : Nat)
    (d : String) :
    ∀ x ∈ storeDeps (memInvalidateByDependency st now d).2, x ∈ storeDeps st :=
  storeDeps_subset_of (withCB_valsMono (memInvalidateByDependencyRaw_valsMono d))

/-- A value returned by the raw `get` is a live cache value, so its
dependency list is part of the store's read-set. -/
theorem memGetRaw_value_deps {now : Nat} {k : String} {st : MemStore}
    {v : Val} (h : (memGetRaw now k st).1 = .ok (some v)) :
    ∀ x ∈ valDeps v, x ∈ storeDeps st := by
  unfold memGetRaw at h
  simp only [] at h
  split at h
  · cases h
  · split at h
    · cases h
    · rename_i e heq
      split at h
      · cases h
      · split at h
        · cases h
        · simp only [Except.ok.injEq, Option.some.injEq] at h
          intro x hx
          rcases alGet_some_mem heq with ⟨kv, hkv, hval⟩
          refine List.mem_flatMap.mpr ⟨kv, hkv, ?_⟩
          rw [hval]
          show x ∈ valDeps e.value
          rw [← show v = e.value from h.symm] at *
          exact hx

/-- The same through the breaker wrapper. -/
theorem memGet_value_deps {st : MemStore} {now : Nat} {k : String} {v : Val}
    (h : (memGet st now k).1 = .ok (some v)) :
    ∀ x ∈ valDeps v, x ∈ storeDeps st := by
  obtain ⟨y, hok, _⟩ := @withCB_ok (Option Val) st now (memGetRaw now k)
    (some v) h
  intro x hx
  exact memGetRaw_value_deps hok x hx

/-- Membership in the cross-store dependency universe. -/
theorem mem_univDeps {x : String} {sts : List MemStore} :
    x ∈ univDeps sts ↔ ∃ s ∈ sts, x ∈ storeDeps s :=
  List.mem_flatMap

/-- `Set.add` accumulation only adds the folded elements. -/
theorem mem_addUnique_fold :
    ∀ (l acc : List String), ∀ x ∈ l.foldl addUnique acc, x ∈ acc ∨ x ∈ l := by
  intro l
  induction l with
  | nil =>
    intro acc x hx
    exact Or.inl hx
  | cons s l ih =>
    intro acc x hx
    rcases ih (addUnique acc s) x hx with h | h
    · unfold addUnique at h
      by_cases hs : s ∈ acc
      · rw [if_pos hs] at h
        exact Or.inl h
      · rw [if_neg hs] at h
        rcases List.mem_append.mp h with h | h
        · exact Or.inl h
        · simp only [List.mem_singleton] at h
          right
          simp [h]
    · right
      simp [h]

/-- The per-store native invalidation pass only shrinks the universe. -/
theorem univDeps_invalidateAllStores (now : Nat) (d : String)
    (sts : List MemStore) :
    ∀ x ∈ univDeps (invalidateAllStores sts now d).1, x ∈ univDeps sts := by
  have hfold : ∀ (l : List MemStore) (acc : List MemStore × Nat),
      ∀ x ∈ univDeps (l.foldl
        (fun (acc : List MemStore × Nat) st =>
          match memInvalidateByDependency st now d with
          | (.ok n, st') => (acc.1 ++ [st'], acc.2 + n)
          | (.error _, st') => (acc.1 ++ [st'], acc.2)) acc).1,
        x ∈ univDeps acc.1 ∨ x ∈ univDeps l := by
    intro l
    induction l with
    | nil =>
      intro acc x hx
      exact Or.inl hx
    | cons st l ih =>
      intro acc x hx
      rw [List.foldl_cons] at hx
      rcases hop : memInvalidateByDependency st now d with ⟨r, st'⟩
      rw [hop] at hx
      have hst' : ∀ y ∈ storeDeps st', y ∈ storeDeps st := by
        intro y hy
        have : st' = (memInvalidateByDependency st now d).2 := by rw [hop]
        rw [this] at hy
        exact storeDeps_memInvalidateByDependency st now d y hy
      have hnext : ∀ (m : Nat),
          x ∈ univDeps ((l.foldl
            (fun (acc : List MemStore × Nat) st =>
              match memInvalidateByDependency st now d with
              | (.ok n, st') => (acc.1 ++ [st'], acc.2 + n)
              | (.error _, st') => (acc.1 ++ [st'], acc.2))
            (acc.1 ++ [st'], m))).1 →
          x ∈ univDeps acc.1 ∨ x ∈ univDeps (st :: l) := by
        intro m hm
        rcases ih (acc.1 ++ [st'], m) x hm with h | h
        · rcases mem_univDeps.mp h with ⟨s, hs, hxs⟩
          rcases List.mem_append.mp hs with hs | hs
          · exact Or.inl (mem_univDeps.mpr ⟨s, hs, hxs⟩)
          · simp only [List.mem_singleton] at hs
            subst hs
            exact Or.inr (mem_univDeps.mpr ⟨st, by simp, hst' x hxs⟩)
        · rcases mem_univDeps.mp h with ⟨s, hs, hxs⟩
          exact Or.inr (mem_univDeps.mpr ⟨s, by simp [hs], hxs⟩)
      cases r with
      | ok n => exact hnext (acc.2 + n) hx
      | error e => exact hnext acc.2 hx
  intro x hx
  rcases hfold sts ([], 0) x hx with h | h
  · simp [univDeps] at h
  · exact h

/-- The per-store scan only shrinks the store it reads. -/
theorem scanKeys_storeDeps (now : Nat) (d : String) :
    ∀ (ks : List String) (st : MemStore) (acc : List String),
      ∀ x ∈ storeDeps (scanKeys now d st ks acc).1, x ∈ storeDeps st := by
  intro ks
  induction ks with
  | nil =>
    intro st acc x hx
    exact hx
  | cons k ks ih =>
    intro st acc x hx
    unfold scanKeys at hx
    rcases hg : memGet st now k with ⟨r, st'⟩
    rw [hg] at hx
    have hst' : ∀ y ∈ storeDeps st', y ∈ storeDeps st := by
      intro y hy
      have : st' = (memGet st now k).2 := by rw [hg]
      rw [this] at hy
      exact storeDeps_memGet st now k y hy
    cases r with
    | error e => exact hst' x hx
    | ok v => exact hst' x (ih st' _ x hx)

/-- Every dependency the scan adds is read off a live value that also
carries the parent, so both are in the store's universe. -/
theorem scanKeys_children (now : Nat) (d : String) :
    ∀ (ks : List String) (st : MemStore) (acc : List String),
      ∀ x ∈ (scanKeys now d st ks acc).2,
        x ∈ acc ∨ (x ∈ storeDeps st ∧ d ∈ storeDeps st) := by
  intro ks
  induction ks with
  | nil =>
    intro st acc x hx
    exact Or.inl hx
  | cons k ks ih =>
    intro st acc x hx
    unfold scanKeys at hx
    rcases hg : memGet st now k with ⟨r, st'⟩
    rw [hg] at hx
    have hmono : ∀ y ∈ storeDeps st', y ∈ storeDeps st := by
      intro y hy
      have : st' = (memGet st now k).2 := by rw [hg]
      rw [this] at hy
      exact storeDeps_memGet st now k y hy
    cases r with
    | error e => exact Or.inl hx
    | ok v =>
      have hval : ∀ w, v = some w → ∀ y ∈ valDeps w, y ∈ storeDeps st := by
        intro w hw y hy
        refine @memGet_value_deps st now k w ?_ y hy
        rw [hg, hw]
      rcases ih st' _ x hx with hacc | ⟨hxs, hds⟩
      · cases v with
        | none => exact Or.inl hacc
        | some w =>
          cases w with
          | undef => exact Or.inl hacc
          | prim n => exact Or.inl hacc
          | obj odeps =>
            cases odeps with
            | none => exact Or.inl hacc
            | some ds =>
              simp only [] at hacc
              by_cases hd : d ∈ ds
              · rw [if_pos hd] at hacc
                rcases mem_addUnique_fold _ acc x hacc with h | h
                · exact Or.inl h
                · right
                  have hxds : x ∈ ds := (List.mem_filter.mp h).1
                  exact ⟨hval (.obj (some ds)) rfl x hxds,
                    hval (.obj (some ds)) rfl d hd⟩
              · rw [if_neg hd] at hacc
                exact Or.inl hacc
      · exact Or.inr ⟨hmono x hxs, hmono d hds⟩

/-- `findChildDependencies`: the stores only shrink, and every child (with
the parent) is in the pre-scan universe. -/
theorem findChildDeps_spec (now : Nat) (d : String) (stores : List MemStore) :
    (∀ x ∈ univDeps (findChildDeps stores now d).1, x ∈ univDeps stores)
    ∧ (∀ c ∈ (findChildDeps stores now d).2,
        c ∈ univDeps stores ∧ d ∈ univDeps stores) := by
  have hfold : ∀ (l : List MemStore) (acc : List MemStore × List String),
      (∀ x ∈ univDeps (l.foldl
        (fun (acc : List MemStore × List String) st =>
          match memKeys st now (some "*") with
          | (.error _, st') => (acc.1 ++ [st'], acc.2)
          | (.ok ks, st') =>
            let p := scanKeys now d st' ks acc.2
            (acc.1 ++ [p.1], p.2)) acc).1,
        x ∈ univDeps acc.1 ∨ x ∈ univDeps l)
      ∧ (∀ c ∈ (l.foldl
        (fun (acc : List MemStore × List String) st =>
          match memKeys st now (some "*") with
          | (.error _, st') => (acc.1 ++ [st'], acc.2)
          | (.ok ks, st') =>
            let p := scanKeys now d st' ks acc.2
            (acc.1 ++ [p.1], p.2)) acc).2,
        c ∈ acc.2 ∨ (c ∈ univDeps l ∧ d ∈ univDeps l)) := by
    intro l
    induction l with
    | nil =>
      intro acc
      exact ⟨fun x hx => Or.inl hx, fun c hc => Or.inl hc⟩
    | cons st l ih =>
      intro acc
      rcases hK : memKeys st now (some "*") with ⟨r, st'⟩
      have hmonoK : ∀ y ∈ storeDeps st', y ∈ storeDeps st := by
        intro y hy
        have : st' = (memKeys st now (some "*")).2 := by rw [hK]
        rw [this] at hy
        exact storeDeps_memKeys st now (some "*") y hy
      have htail : ∀ (s : MemStore) (hs : s ∈ l) (y : String),
          y ∈ storeDeps s → y ∈ univDeps (st :: l) := by
        intro s hs y hy
        exact mem_univDeps.mpr ⟨s, by simp [hs], hy⟩
      constructor
      · intro x hx
        rw [List.foldl_cons, hK] at hx
        cases r with
        | error e =>
          rcases (ih (acc.1 ++ [st'], acc.2)).1 x hx with h | h
          · rcases mem_univDeps.mp h with ⟨s, hs, hxs⟩
            rcases List.mem_append.mp hs with hs | hs
            · exact Or.inl (mem_univDeps.mpr ⟨s, hs, hxs⟩)
            · simp only [List.mem_singleton] at hs
              subst hs
              exact Or.inr (mem_univDeps.mpr ⟨st, by simp, hmonoK x hxs⟩)
          · rcases mem_univDeps.mp h with ⟨s, hs, hxs⟩
            exact Or.inr (htail s hs x hxs)
        | ok ks =>
          rcases (ih (acc.1 ++ [(scanKeys now d st' ks acc.2).1],
              (scanKeys now d st' ks acc.2).2)).1 x hx with h | h
          · rcases mem_univDeps.mp h with ⟨s, hs, hxs⟩
            rcases List.mem_append.mp hs with hs | hs
            · exact Or.inl (mem_univDeps.mpr ⟨s, hs, hxs⟩)
            · simp only [List.mem_singleton] at hs
              subst hs
              exact Or.inr (mem_univDeps.mpr ⟨st, by simp,
                hmonoK x (scanKeys_storeDeps now d ks st' acc.2 x hxs)⟩)
          · rcases mem_univDeps.mp h with ⟨s, hs, hxs⟩
            exact Or.inr (htail s hs x hxs)
      · intro c hc
        rw [List.foldl_cons, hK] at hc
        cases r with
        | error e =>
          rcases (ih (acc.1 ++ [st'], acc.2)).2 c hc with h | ⟨h1, h2⟩
          · exact Or.inl h
          · refine Or.inr ⟨?_, ?_⟩
            · rcases mem_univDeps.mp h1 with ⟨s, hs, hxs⟩
              exact htail s hs c hxs
            · rcases mem_univDeps.mp h2 with ⟨s, hs, hxs⟩
              exact htail s hs d hxs
        | ok ks =>
          rcases (ih (acc.1 ++ [(scanKeys now d st' ks acc.2).1],
              (scanKeys now d st' ks acc.2).2)).2 c hc with h | ⟨h1, h2⟩
          · rcases scanKeys_children now d ks st' acc.2 c h with h' | ⟨h1', h2'⟩
            · exact Or.inl h'
            · exact Or.inr ⟨mem_univDeps.mpr ⟨st, by simp, hmonoK c h1'⟩,
                mem_univDeps.mpr ⟨st, by simp, hmonoK d h2'⟩⟩
          · refine Or.inr ⟨?_, ?_⟩
            · rcases mem_univDeps.mp h1 with ⟨s, hs, hxs⟩
              exact htail s hs c hxs
            · rcases mem_univDeps.mp h2 with ⟨s, hs, hxs⟩
              exact htail s hs d hxs
  constructor
  · intro x hx
    rcases (hfold stores ([], [])).1 x hx with h | h
    · simp [univDeps] at h
    · exact h
  · intro c hc
    rcases (hfold stores ([], [])).2 c hc with h | h
    · cases h
    · exact h

/-- Appending a fresh element keeps a visited list duplicate-free. -/
theorem nodup_append_single {l : List String} {a : String}
    (h : l.Nodup) (ha : a ∉ l) : (l ++ [a]).Nodup := by
  rw [List.nodup_append]
  refine ⟨h, List.nodup_singleton a, ?_⟩
  intro x hx hxa
  rw [List.mem_singleton] at hxa
  subst hxa
  exact ha hx

/-- The child loop inherits shrinking / visited-extension / Nodup from the
per-child calls. -/
theorem cascadeList_spec
    (f : List MemStore → List String → String →
      Option (List MemStore × List String × Nat))
    (hf : ∀ sts vis c r, f sts vis c = some r →
      (∀ x ∈ univDeps r.1, x ∈ univDeps sts)
      ∧ (∃ e, r.2.1 = vis ++ e)
      ∧ (vis.Nodup → r.2.1.Nodup)) :
    ∀ (cs : List String) (sts : List MemStore) (vis : List String)
      (r : List MemStore × List String × Nat),
      cascadeList f sts vis cs = some r →
      (∀ x ∈ univDeps r.1, x ∈ univDeps sts)
      ∧ (∃ e, r.2.1 = vis ++ e)
      ∧ (vis.Nodup → r.2.1.Nodup) := by
  intro cs
  induction cs with
  | nil =>
    intro sts vis r h
    simp only [cascadeList] at h
    injection h with h
    subst h
    exact ⟨fun x hx => hx, ⟨[], by simp⟩, fun hnd => hnd⟩
  | cons c cs ih =>
    intro sts vis r h
    simp only [cascadeList] at h
    rcases hf1 : f sts vis c with _ | ⟨sts1, vis1, n⟩
    · rw [hf1] at h
      simp at h
    · rw [hf1] at h
      simp only [] at h
      rcases h2 : cascadeList f sts1 vis1 cs with _ | ⟨sts2, vis2, m⟩
      · rw [h2] at h
        simp at h
      · rw [h2] at h
        simp only [] at h
        injection h with h
        subst h
        obtain ⟨hm1, ⟨e1, he1⟩, hn1⟩ := hf sts vis c _ hf1
        obtain ⟨hm2, ⟨e2, he2⟩, hn2⟩ := ih sts1 vis1 _ h2
        refine ⟨fun x hx => hm1 x (hm2 x hx), ⟨e1 ++ e2, ?_⟩,
          fun hnd => hn2 (hn1 hnd)⟩
        have he1' : vis1 = vis ++ e1 := he1
        rw [he2, he1', List.append_assoc]

/-- Any successful internal invalidation only shrinks the dependency
universe, only appends to the shared visited set, and keeps it
duplicate-free. -/
theorem invalInternal_spec (now : Nat) :
    ∀ (fuel : Nat) (sts : List MemStore) (vis : List String) (d : String)
      (r : List MemStore × List String × Nat),
      invalInternal now true fuel sts vis d = some r →
      (∀ x ∈ univDeps r.1, x ∈ univDeps sts)
      ∧ (∃ e, r.2.1 = vis ++ e)
      ∧ (vis.Nodup → r.2.1.Nodup) := by
  intro fuel
  induction fuel with
  | zero =>
    intro sts vis d r h
    simp [invalInternal] at h
  | succ fuel ih =>
    intro sts vis d r h
    rw [invalInternal] at h
    by_cases hdv : d ∈ vis
    · rw [if_pos hdv] at h
      injection h with h
      subst h
      exact ⟨fun x hx => hx, ⟨[], by simp⟩, fun hnd => hnd⟩
    · rw [if_neg hdv] at h
      simp only [if_true] at h
      by_cases hq : (findChildDeps (invalidateAllStores sts now d).1 now d).2 = []
      · rw [if_pos hq] at h
        injection h with h
        subst h
        refine ⟨?_, ⟨[d], rfl⟩, fun hnd => nodup_append_single hnd hdv⟩
        intro x hx
        exact univDeps_invalidateAllStores now d sts x
          ((findChildDeps_spec now d (invalidateAllStores sts now d).1).1 x hx)
      · rw [if_neg hq] at h
        rcases hc : cascadeList (invalInternal now true fuel)
            (findChildDeps (invalidateAllStores sts now d).1 now d).1
            (vis ++ [d])
            (findChildDeps (invalidateAllStores sts now d).1 now d).2
          with _ | ⟨sts3, vis3, m⟩
        · rw [hc] at h
          simp at h
        · rw [hc] at h
          simp only [] at h
          injection h with h
          subst h
          obtain ⟨hm, ⟨e, he⟩, hnd⟩ :=
            cascadeList_spec _ (fun a b c r hr => ih a b c r hr) _ _ _ _ hc
          refine ⟨?_, ⟨[d] ++ e, by rw [he, List.append_assoc]⟩,
            fun hv => hnd (nodup_append_single hv hdv)⟩
          intro x hx
          exact univDeps_invalidateAllStores now d sts x
            ((findChildDeps_spec now d (invalidateAllStores sts now d).1).1 x
              (hm x hx))

/-- Replacing the per-child worker by a pointwise-larger one preserves the
result of the child loop. -/
theorem cascadeList_mono
    (f g : List MemStore → List String → String →
      Option (List MemStore × List String × Nat))
    (hfg : ∀ a b c r, f a b c = some r → g a b c = some r) :
    ∀ (cs : List String) (sts : List MemStore) (vis : List String)
      (r : List MemStore × List String × Nat),
      cascadeList f sts vis cs = some r → cascadeList g sts vis cs = some r := by
  intro cs
  induction cs with
  | nil =>
    intro sts vis r h
    simpa only [cascadeList] using h
  | cons c cs ih =>
    intro sts vis r h
    simp only [cascadeList] at h ⊢
    rcases hf1 : f sts vis c with _ | ⟨sts1, vis1, n⟩
    · rw [hf1] at h
      simp at h
    · rw [hf1] at h
      rw [hfg sts vis c _ hf1]
      simp only [] at h ⊢
      rcases h2 : cascadeList f sts1 vis1 cs with _ | ⟨sts2, vis2, m⟩
      · rw [h2] at h
        simp at h
      · rw [h2] at h
        rw [ih sts1 vis1 _ h2]
        exact h

/-- Once the recursion succeeds, one more unit of fuel returns the same
result. -/
theorem invalInternal_fuel_succ (now : Nat) :
    ∀ (fuel : Nat) (sts : List MemStore) (vis : List String) (d : String)
      (r : List MemStore × List String × Nat),
      invalInternal now true fuel sts vis d = some r →
      invalInternal now true (fuel + 1) sts vis d = some r := by
  intro fuel
  induction fuel with
  | zero =>
    intro sts vis d r h
    simp [invalInternal] at h
  | succ fuel ih =>
    intro sts vis d r h
    rw [invalInternal] at h ⊢
    by_cases hdv : d ∈ vis
    · rw [if_pos hdv] at h ⊢
      exact h
    · rw [if_neg hdv] at h ⊢
      simp only [if_true] at h ⊢
      by_cases hq : (findChildDeps (invalidateAllStores sts now d).1 now d).2 = []
      · rw [if_pos hq] at h ⊢
        exact h
      · rw [if_neg hq] at h ⊢
        rcases hc : cascadeList (invalInternal now true fuel)
            (findChildDeps (invalidateAllStores sts now d).1 now d).1
            (vis ++ [d])
            (findChildDeps (invalidateAllStores sts now d).1 now d).2
          with _ | ⟨sts3, vis3, m⟩
        · rw [hc] at h
          simp at h
        · rw [hc] at h
          rw [cascadeList_mono (invalInternal now true fuel)
            (invalInternal now true (fuel + 1))
            (fun a b c r hr => ih a b c r hr) _ _ _ _ hc]
          exact h

/-- Fuel monotonicity: a successful run is stable under any larger fuel. -/
theorem invalInternal_fuel_le (now : Nat) (sts : List MemStore)
    (vis : List String) (d : String) (r : List MemStore × List String × Nat)
    (f1 : Nat) :
    ∀ f2, f1 ≤ f2 → invalInternal now true f1 sts vis d = some r →
      invalInternal now true f2 sts vis d = some r := by
  intro f2
  induction f2 with
  | zero =>
    intro h12 h
    have hz : f1 = 0 := Nat.le_zero.mp h12
    subst hz
    exact h
  | succ f2 ih =>
    intro h12 h
    rcases Nat.lt_or_ge f1 (f2 + 1) with hlt | hge
    · exact invalInternal_fuel_succ now f2 sts vis d r
        (ih (Nat.lt_succ_iff.mp hlt) h)
    · have he : f1 = f2 + 1 := Nat.le_antisymm h12 hge
      subst he
      exact h

/-- Fuel sufficiency: the recursion always terminates once the fuel exceeds
the number of distinct dependencies still unvisited — in particular for any
cyclic dependency graph. -/
theorem invalInternal_isSome (now : Nat) :
    ∀ (n : Nat) (sts : List MemStore) (vis : List String) (d : String),
      ((univDeps sts).toFinset \ vis.toFinset).card ≤ n →
      (invalInternal now true (n + 1) sts vis d).isSome := by
  intro n
  induction n using Nat.strong_induction_on with
  | _ n ih =>
    intro sts vis d hcard
    rw [invalInternal]
    by_cases hdv : d ∈ vis
    · rw [if_pos hdv]
      rfl
    · rw [if_neg hdv]
      simp only [if_true]
      by_cases hq : (findChildDeps (invalidateAllStores sts now d).1 now d).2 = []
      · rw [if_pos hq]
        rfl
      · rw [if_neg hq]
        have hdU : d ∈ univDeps sts := by
          rcases List.exists_mem_of_ne_nil _ hq with ⟨c, hc⟩
          have h2 := (findChildDeps_spec now d (invalidateAllStores sts now d).1).2 c hc
          exact univDeps_invalidateAllStores now d sts d h2.2
        have hdmem : d ∈ (univDeps sts).toFinset \ vis.toFinset := by
          rw [Finset.mem_sdiff]
          exact ⟨List.mem_toFinset.mpr hdU,
            fun hd => hdv (List.mem_toFinset.mp hd)⟩
        have hpos : 1 ≤ ((univDeps sts).toFinset \ vis.toFinset).card :=
          Finset.card_pos.mpr ⟨d, hdmem⟩
        have hcas : ∀ (cs : List String) (sts1 : List MemStore)
            (vis1 : List String),
            (∀ x ∈ univDeps sts1, x ∈ univDeps sts) →
            (∀ x ∈ vis, x ∈ vis1) → d ∈ vis1 →
            (cascadeList (invalInternal now true n) sts1 vis1 cs).isSome := by
          intro cs
          induction cs with
          | nil =>
            intro sts1 vis1 _ _ _
            rfl
          | cons c cs ihc =>
            intro sts1 vis1 hU hv hd1
            have hsub : (univDeps sts1).toFinset \ vis1.toFinset ⊆
                ((univDeps sts).toFinset \ vis.toFinset).erase d := by
              intro x hx
              rw [Finset.mem_sdiff] at hx
              rw [Finset.mem_erase, Finset.mem_sdiff]
              refine ⟨?_, List.mem_toFinset.mpr
                (hU x (List.mem_toFinset.mp hx.1)), ?_⟩
              · intro hxd
                subst hxd
                exact hx.2 (List.mem_toFinset.mpr hd1)
              · intro hxv
                exact hx.2 (List.mem_toFinset.mpr
                  (hv x (List.mem_toFinset.mp hxv)))
            have hlt : ((univDeps sts1).toFinset \ vis1.toFinset).card ≤ n - 1 := by
              have h1 := Finset.card_le_card hsub
              have h2 := Finset.card_erase_of_mem hdmem
              omega
            have hn1 : n - 1 < n := by omega
            have hhead := ih (n - 1) hn1 sts1 vis1 c hlt
            have hfe : n - 1 + 1 = n := by omega
            rw [hfe] at hhead
            rcases hres : invalInternal now true n sts1 vis1 c
              with _ | ⟨sts2, vis2, m⟩
            · rw [hres] at hhead
              simp at hhead
            · obtain ⟨hm2, ⟨e2, he2⟩, _⟩ :=
                invalInternal_spec now n sts1 vis1 c _ hres
              have he2' : vis2 = vis1 ++ e2 := he2
              have htail := ihc sts2 vis2
                (fun x hx => hU x (hm2 x hx))
                (fun x hx => by
                  rw [he2']
                  exact List.mem_append.mpr (Or.inl (hv x hx)))
                (by
                  rw [he2']
                  exact List.mem_append.mpr (Or.inl hd1))
              simp only [cascadeList, hres]
              rcases h2 : cascadeList (invalInternal now true n) sts2 vis2 cs
                with _ | ⟨a, b, m2⟩
              · rw [h2] at htail
                simp at htail
              · rfl
        have hall := hcas
          (findChildDeps (invalidateAllStores sts now d).1 now d).2
          (findChildDeps (invalidateAllStores sts now d).1 now d).1
          (vis ++ [d])
          (fun x hx => univDeps_invalidateAllStores now d sts x
            ((findChildDeps_spec now d (invalidateAllStores sts now d).1).1 x hx))
          (fun x hx => List.mem_append.mpr (Or.inl hx))
          (List.mem_append.mpr (Or.inr (List.mem_singleton.mpr rfl)))
        rcases hc : cascadeList (invalInternal now true n)
            (findChildDeps (invalidateAllStores sts now d).1 now d).1
            (vis ++ [d])
            (findChildDeps (invalidateAllStores sts now d).1 now d).2
          with _ | ⟨s3, v3, m⟩
        · rw [hc] at hall
          simp at hall
        · rfl

/-- **C1**: `invalidateByDependency(d, {cascade: true})` terminates on every
dependency graph encoded in the cache contents, including cyclic ones: with
fuel beyond the number of distinct dependencies in the stores the fuelled
embedding of the recursion succeeds and its result is stable under any
larger fuel (so the unbounded recursion terminates with that result); the
single visited set threaded through all nested cascades never acquires a
duplicate, so no dependency is processed or counted twice; and a dependency
already in the visited set is skipped immediately with contribution 0 and
no store access. -/
theorem dependencyInvalidator_cycleSafe
    (now : Nat) (stores sts : List MemStore) (d d' : String)
    (vis : List String) (fuel extra : Nat)
    (hfuel : (univDeps stores).toFinset.card + 1 ≤ fuel)
    (hd' : d' ∈ vis) :
    (∃ sts' vis' n,
      invalidateByDependency now stores d true fuel = some (sts', vis', n)
      ∧ (∀ g, fuel ≤ g →
          invalidateByDependency now stores d true g = some (sts', vis', n))
      ∧ vis'.Nodup)
    ∧ invalInternal now true (extra + 1) sts vis d' = some (sts, vis, 0) := by
  constructor
  · have hcard : ((univDeps stores).toFinset \
        ([] : List String).toFinset).card ≤ fuel - 1 := by
      simp only [List.toFinset_nil, Finset.sdiff_empty]
      omega
    have hsome := invalInternal_isSome now (fuel - 1) stores [] d hcard
    have hfe : fuel - 1 + 1 = fuel := by omega
    rw [hfe] at hsome
    rcases hres : invalInternal now true fuel stores [] d
      with _ | ⟨sts', vis', n⟩
    · rw [hres] at hsome
      simp at hsome
    · refine ⟨sts', vis', n, hres, ?_, ?_⟩
      · intro g hg
        exact invalInternal_fuel_le now stores [] d (sts', vis', n) fuel g hg hres
      · exact (invalInternal_spec now fuel stores [] d _ hres).2.2 List.nodup_nil
  · rw [invalInternal, if_pos hd']

/-- Witness: the cyclic two-dependency store terminates within fuel 3 and an
already-visited dependency is skipped with contribution 0. -/
theorem dependencyInvalidator_cycleSafe_witness :
    ((univDeps [c1CycleStore]).toFinset.card + 1 ≤ 3 ∧ "A" ∈ ["A"])
    ∧ ((∃ sts' vis' n,
        invalidateByDependency 0 [c1CycleStore] "A" true 3 = some (sts', vis', n)
        ∧ (∀ g, 3 ≤ g →
            invalidateByDependency 0 [c1CycleStore] "A" true g = some (sts', vis', n))
        ∧ vis'.Nodup)
      ∧ invalInternal 0 true (0 + 1) [] ["A"] "A" = some ([], ["A"], 0)) :=
  ⟨⟨by decide, by decide⟩,
    dependencyInvalidator_cycleSafe 0 [c1CycleStore] [] "A" "A" ["A"] 3 0
      (by decide) (by decide)⟩

end CacheSpec
